import Mathlib

/-!
Shallow embedding of the namespace engine of the virtual-file-explorer-cli
repository: the `FileSystem` class and the `MountManager` class of
`src/models/FileSystem.ts` / `src/models/MountManager.ts`.

Modelling conventions:
* a JavaScript string is a `List Char` (file contents, which no operation
  inspects, stay `String`);
* a JavaScript `Map<string, FileSystemNode>` is an insertion-ordered
  association list; `get`/`has`/`set`/`delete` read and write the first
  binding of a key, exactly as a `Map` with unique keys does;
* the TypeScript methods mutate the tree through the node reference that
  `findNode` returns; functionally this is a rebuild of the tree along the
  node's segment list (`modifyAt` below), which fails in exactly the cases
  the reference walk fails;
* node metadata that no modelled operation observes (`createdAt`, the
  `path` string cached on each node, the non-owning `parent` back
  reference) is dropped; `name` is the key in the parent's children map.
-/

namespace VFE

/-- JS `s.split('/')` on the character list of the string. -/
def splitSlash : List Char → List (List Char)
  | [] => [[]]
  | c :: cs =>
    match splitSlash cs with
    | [] => [[]]
    | h :: t => if c = '/' then [] :: h :: t else (c :: h) :: t

/-- JS `arr.join('/')`. -/
def joinSlash : List (List Char) → List Char
  | [] => []
  | [s] => s
  | s :: t :: rest => s ++ '/' :: joinSlash (t :: rest)

/-- JS `s.replace(/\x7b slashes \x7d+/g, '/')` — collapse every run of
repeated `'/'` characters into a single one. -/
def collapseSlashes : List Char → List Char
  | [] => []
  | [c] => [c]
  | c :: d :: rest =>
    if c = '/' ∧ d = '/' then collapseSlashes (d :: rest)
    else c :: collapseSlashes (d :: rest)

/-- JS `s.startsWith(p)`. -/
def startsWithL : List Char → List Char → Bool
  | _, [] => true
  | [], _ :: _ => false
  | c :: cs, p :: ps => if c = p then startsWithL cs ps else false

/-- JS `s.lastIndexOf('/')`; `none` models the JS result `-1`. -/
def lastSlash : List Char → Option Nat
  | [] => none
  | c :: cs =>
    match lastSlash cs with
    | some i => some (i + 1)
    | none => if c = '/' then some (0 : Nat) else none

/-- `path.split('/').filter(seg => seg !== '')`. -/
def segsOf (p : List Char) : List (List Char) :=
  (splitSlash p).filter (fun s => s ≠ [])

/-- The segment loop of `normalizePath`: `'.'` is dropped, `'..'` pops the
last retained segment (`result.pop()` on an empty array is a no-op, as is
`dropLast` on `[]`), anything else is pushed. -/
def foldSegs (result : List (List Char)) : List (List Char) → List (List Char)
  | [] => result
  | seg :: rest =>
    if seg = ['.'] then foldSegs result rest
    else if seg = ['.', '.'] then foldSegs result.dropLast rest
    else foldSegs (result ++ [seg]) rest

/-- `lastIndexOf('/')` plus the two `substring`s and the `|| '/'` default
with which `mkdir`, `createFile` and `remove` split a normalized path into
parent path and final name.  With `lastIndexOf = -1`, JS
`substring(0, -1)` is `""` (so the parent defaults to `'/'`) and
`substring(0)` is the whole string. -/
def splitParent (np : List Char) : List Char × List Char :=
  match lastSlash np with
  | none => (['/'], np)
  | some i =>
    let pp := np.take i
    (if pp = [] then ['/'] else pp, np.drop (i + 1))

/-- A filesystem node: `FileNode` with its content, or `DirectoryNode`
with its ordered children map. -/
inductive FSNode where
  | file (content : String)
  | dir (children : List (List Char × FSNode))

/-- JS `children.get(name)`. -/
def childGet : List (List Char × FSNode) → List Char → Option FSNode
  | [], _ => none
  | (k, v) :: rest, name => if k = name then some v else childGet rest name

/-- JS `children.has(name)`. -/
def childHas (ch : List (List Char × FSNode)) (name : List Char) : Bool :=
  (childGet ch name).isSome

/-- JS `children.set(name, v)`: replace the first binding in place, else
append. -/
def childSet : List (List Char × FSNode) → List Char → FSNode → List (List Char × FSNode)
  | [], name, v => [(name, v)]
  | (k, w) :: rest, name, v =>
    if k = name then (name, v) :: rest else (k, w) :: childSet rest name v

/-- JS `children.delete(name)`: whether a binding was present, and the map
with the first such binding removed. -/
def childDelete : List (List Char × FSNode) → List Char → Bool × List (List Char × FSNode)
  | [], _ => (false, [])
  | (k, w) :: rest, name =>
    if k = name then (true, rest)
    else
      let r := childDelete rest name
      (r.1, (k, w) :: r.2)

/-- The segment walk of `FileSystem.findNode`: descend into `children`,
failing on a missing segment or on a `File` in an intermediate position. -/
def descend : FSNode → List (List Char) → Option FSNode
  | node, [] => some node
  | FSNode.file _, _ :: _ => none
  | FSNode.dir ch, seg :: rest =>
    match childGet ch seg with
    | none => none
    | some next => descend next rest

/-- The in-place mutation of the node that `findNode` returned, as a
functional rebuild along that node's segment list.  The walk fails exactly
where `findNode`'s walk fails; `f` returns the replacement node or `none`
for the method's own failure cases. -/
def modifyAt : FSNode → List (List Char) → (FSNode → Option FSNode) → Option FSNode
  | node, [], f => f node
  | FSNode.file _, _ :: _, _ => none
  | FSNode.dir ch, seg :: rest, f =>
    match childGet ch seg with
    | none => none
    | some child =>
      match modifyAt child rest f with
      | none => none
      | some child' => some (FSNode.dir (childSet ch seg child'))

/-- Well-formed node: every children map has pairwise distinct keys (the
invariant every `Map<string, _>` enjoys by construction). -/
def keysNodup : List (List Char) → Bool
  | [] => true
  | k :: rest => if k ∈ rest then false else keysNodup rest

mutual
/-- `nodeWF n`: every children map in the tree under `n` has distinct keys. -/
def nodeWF : FSNode → Bool
  | FSNode.file _ => true
  | FSNode.dir ch => keysNodup (ch.map (fun c => c.1)) && childrenWF ch

/-- `nodeWF` over a children list. -/
def childrenWF : List (List Char × FSNode) → Bool
  | [] => true
  | c :: rest => nodeWF c.2 && childrenWF rest
end

namespace FS

/-- `FileSystem.normalizePath(path, currentDir = '/')`. -/
def normalizePath (path : List Char) (currentDir : List Char) : List Char :=
  if path = [] then ['/']
  else
    let fullPath := if startsWithL path ['/'] then path else currentDir ++ '/' :: path
    '/' :: joinSlash (foldSegs [] (segsOf fullPath))

/-- `FileSystem.findNode(path, currentDir)`. -/
def findNode (root : FSNode) (path : List Char) (currentDir : List Char) : Option FSNode :=
  if normalizePath path currentDir = ['/'] then some root
  else descend root (segsOf (normalizePath path currentDir))

/-- `FileSystem.mkdir(path, currentDir)`: `some` of the updated tree models
`true`, `none` models `false`. -/
def mkdir (root : FSNode) (path : List Char) (currentDir : List Char) : Option FSNode :=
  let np := normalizePath path currentDir
  if np = ['/'] then none
  else
    let pn := splitParent np
    modifyAt root (segsOf (normalizePath pn.1 ['/'])) (fun parentNode =>
      match parentNode with
      | FSNode.dir ch =>
        if childHas ch pn.2 then none
        else some (FSNode.dir (childSet ch pn.2 (FSNode.dir [])))
      | FSNode.file _ => none)

/-- `FileSystem.createFile(path, content, currentDir)`. -/
def createFile (root : FSNode) (path : List Char) (content : String)
    (currentDir : List Char) : Option FSNode :=
  let np := normalizePath path currentDir
  if np = ['/'] then none
  else
    let pn := splitParent np
    modifyAt root (segsOf (normalizePath pn.1 ['/'])) (fun parentNode =>
      match parentNode with
      | FSNode.dir ch =>
        if childHas ch pn.2 then none
        else some (FSNode.dir (childSet ch pn.2 (FSNode.file content)))
      | FSNode.file _ => none)

/-- The loop body of `FileSystem.mkdirRecursive`: walk the segments,
continuing through existing directories, failing on a file, creating each
missing prefix with `mkdir` (both helpers are called with the default
currentDir `'/'`, as in the source). -/
def mkdirRecursiveGo (root : FSNode) (currentPath : List Char) :
    List (List Char) → Option FSNode
  | [] => some root
  | seg :: rest =>
    let currentPath' := currentPath ++ '/' :: seg
    match findNode root currentPath' ['/'] with
    | some (FSNode.file _) => none
    | some (FSNode.dir _) => mkdirRecursiveGo root currentPath' rest
    | none =>
      match mkdir root currentPath' ['/'] with
      | none => none
      | some root' => mkdirRecursiveGo root' currentPath' rest

/-- `FileSystem.mkdirRecursive(path, currentDir)`. -/
def mkdirRecursive (root : FSNode) (path : List Char) (currentDir : List Char) :
    Option FSNode :=
  let np := normalizePath path currentDir
  if np = ['/'] then none
  else mkdirRecursiveGo root [] (segsOf np)

/-- `FileSystem.writeFile(path, content, currentDir)`: auto-creates via
`createFile` when the path does not resolve, fails on a directory, else
replaces the found file's content in place. -/
def writeFile (root : FSNode) (path : List Char) (content : String)
    (currentDir : List Char) : Option FSNode :=
  match findNode root path currentDir with
  | none => createFile root path content currentDir
  | some (FSNode.dir _) => none
  | some (FSNode.file _) =>
    modifyAt root (segsOf (normalizePath path currentDir))
      (fun _ => some (FSNode.file content))

/-- `FileSystem.readFile(path, currentDir)`. -/
def readFile (root : FSNode) (path : List Char) (currentDir : List Char) : Option String :=
  match findNode root path currentDir with
  | some (FSNode.file c) => some c
  | _ => none

/-- `FileSystem.remove(path, currentDir)`. -/
def remove (root : FSNode) (path : List Char) (currentDir : List Char) : Option FSNode :=
  let np := normalizePath path currentDir
  if np = ['/'] then none
  else
    let pn := splitParent np
    modifyAt root (segsOf (normalizePath pn.1 ['/'])) (fun parentNode =>
      match parentNode with
      | FSNode.dir ch =>
        let r := childDelete ch pn.2
        if r.1 then some (FSNode.dir r.2) else none
      | FSNode.file _ => none)

end FS

/-- The `FileSystem` class: one root node plus display metadata. -/
structure FileSystem where
  root : FSNode
  name : String
  fsType : String

/-- `new FileSystem(name, fsType)`. -/
def newFileSystem (name : String) (fsType : String) : FileSystem :=
  { root := FSNode.dir [], name := name, fsType := fsType }

/-- A mount entry: `{ path, filesystem }`. -/
structure MountPoint where
  path : List Char
  filesystem : FileSystem

/-- The `MountManager` state.  In TypeScript `this.rootFS` and the `'/'`
entry of `this.mounts` alias the same object, and `findResponsibleFilesystem`
returns references into `mounts`; functionally a filesystem is identified by
its mount path, fetched with `getFS` and written back with `setFS` (both act
on the first entry with that path, as every reachable state has pairwise
distinct mount paths). -/
structure MountManager where
  mounts : List MountPoint
  currentDirectory : List Char

namespace MM

/-- The `MountManager` constructor: the root filesystem mounted at `'/'`. -/
def initial : MountManager :=
  { mounts := [{ path := ['/'], filesystem := newFileSystem "root" "ext4" }],
    currentDirectory := ['/'] }

/-- The filesystem owned by the entry mounted at `mp` (`this.rootFS` is the
`'/'` entry); the default value is unreachable from `initial`. -/
def getFS : List MountPoint → List Char → FileSystem
  | [], _ => newFileSystem "root" "ext4"
  | m :: rest, mp => if m.path = mp then m.filesystem else getFS rest mp

/-- Write an updated filesystem back into its mount entry. -/
def setFS : List MountPoint → List Char → FileSystem → List MountPoint
  | [], _, _ => []
  | m :: rest, mp, fs =>
    if m.path = mp then { m with filesystem := fs } :: rest
    else m :: setFS rest mp fs

/-- `MountManager.normalizePath(path)`: an absolute path only has its
consecutive slashes collapsed; a relative path is prepended with the current
directory and folded segment by segment. -/
def normalizePath (currentDirectory : List Char) (path : List Char) : List Char :=
  if startsWithL path ['/'] then collapseSlashes path
  else
    let fullPath := currentDirectory ++ '/' :: path
    '/' :: joinSlash (foldSegs [] (segsOf fullPath))

/-- The prefix test of `findResponsibleFilesystem`:
`path === mount.path || path.startsWith(mount.path + '/')`. -/
def coversPath (path : List Char) (mountPath : List Char) : Bool :=
  if path = mountPath then true else startsWithL path (mountPath ++ ['/'])

/-- Stable insertion of a mount entry into a list kept descending by path
length (JS `sort((a, b) => b.path.length - a.path.length)`, which is
stable). -/
def insertByLen (m : MountPoint) : List MountPoint → List MountPoint
  | [] => [m]
  | x :: xs =>
    if x.path.length < m.path.length then m :: x :: xs
    else x :: insertByLen m xs

/-- The sorted copy `[...this.mounts].sort(...)` of the mount table. -/
def sortMountsDesc (ms : List MountPoint) : List MountPoint :=
  ms.foldl (fun acc m => insertByLen m acc) []

/-- The scan of the sorted mount table: the first entry whose path covers
the given path wins, and the relative path is the input with that mount
path stripped (`'/'` when the match is exact). -/
def findRespGo : List MountPoint → List Char → Option (List Char × List Char)
  | [], _ => none
  | m :: rest, path =>
    if coversPath path m.path then
      some (m.path, if path = m.path then ['/'] else path.drop m.path.length)
    else findRespGo rest path

/-- `MountManager.findResponsibleFilesystem(path)`, as the pair
(mount path of the owning entry, relative path).  The fallback returns
`this.rootFS` — the `'/'` entry — with the path unstripped. -/
def findResponsibleFilesystem (mounts : List MountPoint) (path : List Char) :
    List Char × List Char :=
  match findRespGo (sortMountsDesc mounts) path with
  | some r => r
  | none => (['/'], path)

/-- `MountManager.setCurrentDirectory(newDir)`. -/
def setCurrentDirectory (mm : MountManager) (newDir : List Char) :
    Bool × MountManager :=
  let normalized := normalizePath mm.currentDirectory newDir
  let r := findResponsibleFilesystem mm.mounts normalized
  match FS.findNode (getFS mm.mounts r.1).root r.2 ['/'] with
  | some (FSNode.dir _) => (true, { mm with currentDirectory := normalized })
  | _ => (false, mm)

/-- The loop of `processMountPoints` over `this.mounts`: the root mount is
skipped; a mount whose path equals the projected path (the only way the
computed `segments[0]` can be the empty string when no mount path contains
`'//'`) returns that mount's filesystem root; nothing else — in particular
no recursion into children — happens. -/
def processMountPointsGo (mounts : List MountPoint) (node : FSNode)
    (path : List Char) : FSNode :=
  match mounts with
  | [] => node
  | m :: rest =>
    if m.path = ['/'] then processMountPointsGo rest node path
    else if m.path = path ∨ startsWithL m.path (path ++ ['/']) = true then
      let relativeMountPath :=
        m.path.drop (if path.length = 1 then 1 else path.length + 1)
      match splitSlash relativeMountPath with
      | [] => processMountPointsGo rest node path
      | s0 :: _ =>
        if s0 = [] then
          match FS.findNode m.filesystem.root ['/'] ['/'] with
          | some mountedRoot => mountedRoot
          | none => processMountPointsGo rest node path
        else processMountPointsGo rest node path
    else processMountPointsGo rest node path

/-- `MountManager.processMountPoints(node, path)`: a non-directory is
returned as is; a directory is shallow-copied (`{...node}` — identical as a
pure value) and the mount loop runs. -/
def processMountPoints (mounts : List MountPoint) (node : FSNode)
    (path : List Char) : FSNode :=
  match node with
  | FSNode.file _ => node
  | FSNode.dir _ => processMountPointsGo mounts node path

/-- `MountManager.getFileSystemTree()`: `this.rootFS.findNode('/')` (always
the root directory; the `none` arm is dead) processed once at path `'/'`. -/
def getFileSystemTree (mm : MountManager) : FSNode :=
  match FS.findNode (getFS mm.mounts ['/']).root ['/'] ['/'] with
  | some rootNode => processMountPoints mm.mounts rootNode ['/']
  | none => FSNode.dir []

/-- `MountManager.mount(fsType, mountPoint)`. -/
def mount (mm : MountManager) (fsType : String) (mountPoint : List Char) :
    Bool × MountManager :=
  let normalizedPath := normalizePath mm.currentDirectory mountPoint
  if mm.mounts.any (fun m => m.path = normalizedPath) then (false, mm)
  else
    let r := findResponsibleFilesystem mm.mounts normalizedPath
    let fs := getFS mm.mounts r.1
    let newMount : MountPoint :=
      { path := normalizedPath,
        filesystem := newFileSystem ("mount_" ++ toString mm.mounts.length) fsType }
    match FS.findNode fs.root r.2 ['/'] with
    | none =>
      match FS.mkdirRecursive fs.root r.2 ['/'] with
      | none => (false, mm)
      | some root' =>
        (true, { mm with
                   mounts := setFS mm.mounts r.1 { fs with root := root' } ++ [newMount] })
    | some (FSNode.file _) => (false, mm)
    | some (FSNode.dir _) =>
      (true, { mm with mounts := mm.mounts ++ [newMount] })

/-- `findIndex` + `splice(index, 1)`: remove the first entry with the given
path, or `none` when there is none. -/
def removeFirstMount : List MountPoint → List Char → Option (List MountPoint)
  | [], _ => none
  | m :: rest, np =>
    if m.path = np then some rest
    else
      match removeFirstMount rest np with
      | none => none
      | some r => some (m :: r)

/-- `MountManager.unmount(mountPoint)`. -/
def unmount (mm : MountManager) (mountPoint : List Char) : Bool × MountManager :=
  let normalizedPath := normalizePath mm.currentDirectory mountPoint
  if normalizedPath = ['/'] then (false, mm)
  else
    match removeFirstMount mm.mounts normalizedPath with
    | none => (false, mm)
    | some ms => (true, { mm with mounts := ms })

/-- The route-and-forward pattern shared by every namespace-affecting
operation of the `MountManager`: normalize in context, resolve the owning
entry, run the `FileSystem` operation there and store the updated tree. -/
def forwardOp (mm : MountManager)
    (op : FSNode → Option FSNode) (path : List Char) : Bool × MountManager :=
  let normalizedPath := normalizePath mm.currentDirectory path
  let r := findResponsibleFilesystem mm.mounts normalizedPath
  let fs := getFS mm.mounts r.1
  match op fs.root with
  | some root' =>
    (true, { mm with mounts := setFS mm.mounts r.1 { fs with root := root' } })
  | none => (false, mm)

/-- `MountManager.mkdir(path)`. -/
def mkdir (mm : MountManager) (path : List Char) : Bool × MountManager :=
  forwardOp mm
    (fun root =>
      FS.mkdir root (findResponsibleFilesystem mm.mounts
        (normalizePath mm.currentDirectory path)).2 ['/'])
    path

/-- `MountManager.mkdirRecursive(path)`. -/
def mkdirRecursive (mm : MountManager) (path : List Char) : Bool × MountManager :=
  forwardOp mm
    (fun root =>
      FS.mkdirRecursive root (findResponsibleFilesystem mm.mounts
        (normalizePath mm.currentDirectory path)).2 ['/'])
    path

/-- `MountManager.createFile(path, content)`. -/
def createFile (mm : MountManager) (path : List Char) (content : String) :
    Bool × MountManager :=
  forwardOp mm
    (fun root =>
      FS.createFile root (findResponsibleFilesystem mm.mounts
        (normalizePath mm.currentDirectory path)).2 content ['/'])
    path

/-- `MountManager.writeFile(path, content)`. -/
def writeFile (mm : MountManager) (path : List Char) (content : String) :
    Bool × MountManager :=
  forwardOp mm
    (fun root =>
      FS.writeFile root (findResponsibleFilesystem mm.mounts
        (normalizePath mm.currentDirectory path)).2 content ['/'])
    path

/-- `MountManager.readFile(path)` (read-only). -/
def readFile (mm : MountManager) (path : List Char) : Option String :=
  let normalizedPath := normalizePath mm.currentDirectory path
  let r := findResponsibleFilesystem mm.mounts normalizedPath
  FS.readFile (getFS mm.mounts r.1).root r.2 ['/']

/-- `MountManager.remove(path)`. -/
def remove (mm : MountManager) (path : List Char) : Bool × MountManager :=
  forwardOp mm
    (fun root =>
      FS.remove root (findResponsibleFilesystem mm.mounts
        (normalizePath mm.currentDirectory path)).2 ['/'])
    path

end MM

/-- A segment as produced by normalization: nonempty, slash-free, and not
one of the two dot segments. -/
def goodSeg (s : List Char) : Prop :=
  s ≠ [] ∧ '/' ∉ s ∧ s ≠ ['.'] ∧ s ≠ ['.', '.']

/-! ### Lemmas about the string primitives -/


theorem splitSlash_ne_nil (l : List Char) : splitSlash l ≠ [] := by
  induction l with
  | nil => simp [splitSlash]
  | cons c cs ih =>
    simp only [splitSlash]
    split
    · simp
    · split <;> simp

theorem splitSlash_cons_eq (c : Char) (cs : List Char) :
    splitSlash (c :: cs) =
      if c = '/' then [] :: splitSlash cs
      else (c :: (splitSlash cs).headI) :: (splitSlash cs).tail := by
  simp only [splitSlash]
  rcases hs : splitSlash cs with _ | ⟨h, t⟩
  · exact absurd hs (splitSlash_ne_nil cs)
  · simp

theorem splitSlash_slash_cons (l : List Char) :
    splitSlash ('/' :: l) = [] :: splitSlash l := by
  rw [splitSlash_cons_eq, if_pos rfl]

theorem headI_mem_splitSlash (l : List Char) :
    (splitSlash l).headI ∈ splitSlash l := by
  rcases hs : splitSlash l with _ | ⟨h, t⟩
  · exact absurd hs (splitSlash_ne_nil l)
  · simp

theorem mem_splitSlash_slashFree (l : List Char) :
    ∀ s ∈ splitSlash l, '/' ∉ s := by
  induction l with
  | nil => simp [splitSlash]
  | cons c cs ih =>
    rw [splitSlash_cons_eq]
    by_cases hc : c = '/'
    · rw [if_pos hc]
      intro s hmem
      rcases List.mem_cons.mp hmem with h1 | h1
      · simp [h1]
      · exact ih s h1
    · rw [if_neg hc]
      intro s hmem
      rcases List.mem_cons.mp hmem with h1 | h1
      · subst h1
        intro hin
        rcases List.mem_cons.mp hin with h2 | h2
        · exact hc h2.symm
        · exact ih _ (headI_mem_splitSlash cs) h2
      · exact ih s (List.mem_of_mem_tail h1)

theorem splitSlash_append_slashFree (s l : List Char) (h : '/' ∉ s) :
    splitSlash (s ++ l) =
      (s ++ (splitSlash l).headI) :: (splitSlash l).tail := by
  induction s with
  | nil =>
    simp only [List.nil_append]
    rcases hs : splitSlash l with _ | ⟨a, t⟩
    · exact absurd hs (splitSlash_ne_nil l)
    · simp
  | cons c cs ih =>
    have hc : c ≠ '/' := fun hc => h (by simp [hc])
    have hcs : '/' ∉ cs := fun hin => h (by simp [hin])
    rw [List.cons_append, splitSlash_cons_eq, if_neg hc, ih hcs]
    simp

theorem joinSlash_cons (s : List Char) (l : List (List Char)) (h : l ≠ []) :
    joinSlash (s :: l) = s ++ '/' :: joinSlash l := by
  cases l with
  | nil => exact absurd rfl h
  | cons t rest => simp [joinSlash]

theorem joinSlash_append_single (ss : List (List Char)) (s : List Char)
    (h : ss ≠ []) :
    joinSlash (ss ++ [s]) = joinSlash ss ++ '/' :: s := by
  induction ss with
  | nil => exact absurd rfl h
  | cons t rest ih =>
    cases rest with
    | nil => simp [joinSlash]
    | cons u v =>
      rw [List.cons_append, joinSlash_cons t ((u :: v) ++ [s]) (by simp),
        joinSlash_cons t (u :: v) (by simp), ih (by simp)]
      simp

theorem splitSlash_join_good (ss : List (List Char))
    (h : ∀ s ∈ ss, s ≠ [] ∧ '/' ∉ s) (hne : ss ≠ []) :
    splitSlash (joinSlash ss) = ss := by
  induction ss with
  | nil => exact absurd rfl hne
  | cons s rest ih =>
    have hs := h s (by simp)
    cases rest with
    | nil =>
      show splitSlash (joinSlash [s]) = [s]
      have : joinSlash [s] = s ++ [] := by simp [joinSlash]
      rw [this, splitSlash_append_slashFree s [] hs.2]
      simp [splitSlash]
    | cons t v =>
      rw [joinSlash_cons s (t :: v) (by simp),
        splitSlash_append_slashFree s ('/' :: joinSlash (t :: v)) hs.2,
        splitSlash_slash_cons, ih (fun x hx => h x (by simp [hx])) (by simp)]
      simp

theorem segsOf_slash_join (ss : List (List Char))
    (h : ∀ s ∈ ss, s ≠ [] ∧ '/' ∉ s) :
    segsOf ('/' :: joinSlash ss) = ss := by
  rw [segsOf, splitSlash_slash_cons]
  cases hss : ss with
  | nil => simp [joinSlash, splitSlash]
  | cons s rest =>
    rw [← hss, splitSlash_join_good ss h (by simp [hss])]
    rw [List.filter_cons]
    simp [List.filter_eq_self]
    exact fun a ha => (h a ha).1

theorem foldSegs_mem (l : List (List Char)) :
    ∀ acc, ∀ x ∈ foldSegs acc l,
      x ∈ acc ∨ (x ∈ l ∧ x ≠ ['.'] ∧ x ≠ ['.', '.']) := by
  induction l with
  | nil => intro acc x hx; exact Or.inl (by simpa [foldSegs] using hx)
  | cons s rest ih =>
    intro acc x hx
    simp only [foldSegs] at hx
    by_cases h1 : s = ['.']
    · rw [if_pos h1] at hx
      rcases ih acc x hx with h | h
      · exact Or.inl h
      · exact Or.inr ⟨by simp [h.1], h.2⟩
    · rw [if_neg h1] at hx
      by_cases h2 : s = ['.', '.']
      · rw [if_pos h2] at hx
        rcases ih acc.dropLast x hx with h | h
        · exact Or.inl (List.dropLast_subset acc h)
        · exact Or.inr ⟨by simp [h.1], h.2⟩
      · rw [if_neg h2] at hx
        rcases ih (acc ++ [s]) x hx with h | h
        · rcases List.mem_append.mp h with h3 | h3
          · exact Or.inl h3
          · have hxs : x = s := by simpa using h3
            exact Or.inr ⟨by simp [hxs], hxs ▸ h1, hxs ▸ h2⟩
        · exact Or.inr ⟨by simp [h.1], h.2⟩

theorem foldSegs_dotFree (l : List (List Char))
    (h : ∀ x ∈ l, x ≠ ['.'] ∧ x ≠ ['.', '.']) :
    ∀ acc, foldSegs acc l = acc ++ l := by
  induction l with
  | nil => intro acc; simp [foldSegs]
  | cons s rest ih =>
    intro acc
    have hs := h s (by simp)
    simp only [foldSegs, if_neg hs.1, if_neg hs.2]
    rw [ih (fun x hx => h x (by simp [hx]))]
    simp

/-! ### Shape of normalization outputs -/

theorem mem_segsOf (l : List Char) : ∀ s ∈ segsOf l, s ≠ [] ∧ '/' ∉ s := by
  intro s hs
  rw [segsOf] at hs
  have h1 := List.mem_filter.mp hs
  exact ⟨by simpa using h1.2, mem_splitSlash_slashFree l s h1.1⟩

theorem goodSegs_fold (l : List Char) :
    ∀ x ∈ foldSegs [] (segsOf l), goodSeg x := by
  intro x hx
  rcases foldSegs_mem (segsOf l) [] x hx with h | h
  · simp at h
  · exact ⟨(mem_segsOf l x h.1).1, (mem_segsOf l x h.1).2, h.2.1, h.2.2⟩

theorem segsOf_root : segsOf ['/'] = [] := by decide

theorem goodSeg_pair (s : List Char) (h : goodSeg s) : s ≠ [] ∧ '/' ∉ s :=
  ⟨h.1, h.2.1⟩

theorem goodSeg_dots (s : List Char) (h : goodSeg s) :
    s ≠ ['.'] ∧ s ≠ ['.', '.'] :=
  ⟨h.2.2.1, h.2.2.2⟩

theorem norm_shape (p cd : List Char) :
    ∃ ss, FS.normalizePath p cd = '/' :: joinSlash ss ∧
      segsOf (FS.normalizePath p cd) = ss ∧ ∀ s ∈ ss, goodSeg s := by
  by_cases hp : p = []
  · refine ⟨[], ?_, ?_, by simp⟩
    · subst hp; rw [FS.normalizePath, if_pos rfl]; rfl
    · subst hp; rw [FS.normalizePath, if_pos rfl]; exact segsOf_root
  · refine ⟨foldSegs [] (segsOf (if startsWithL p ['/'] then p
      else cd ++ '/' :: p)), ?_, ?_, ?_⟩
    · rw [FS.normalizePath, if_neg hp]
    · rw [FS.normalizePath, if_neg hp]
      exact segsOf_slash_join _ (fun s hs =>
        goodSeg_pair s (goodSegs_fold _ s hs))
    · exact fun s hs => goodSegs_fold _ s hs

theorem joinSlash_ne_nil (ss : List (List Char)) (h : ∀ s ∈ ss, goodSeg s)
    (hne : ss ≠ []) : joinSlash ss ≠ [] := by
  cases ss with
  | nil => exact absurd rfl hne
  | cons s rest =>
    cases rest with
    | nil => exact (h s (by simp)).1
    | cons t v => simp [joinSlash]

theorem norm_root_iff (p cd : List Char) :
    FS.normalizePath p cd = ['/'] ↔ segsOf (FS.normalizePath p cd) = [] := by
  obtain ⟨ss, he, hsegs, hgood⟩ := norm_shape p cd
  rw [hsegs, he]
  constructor
  · intro h1
    by_contra hne
    exact joinSlash_ne_nil ss hgood hne (by simpa using h1)
  · intro h1; rw [h1]; rfl

theorem normalizePath_canon (cd : List Char) (ss : List (List Char))
    (h : ∀ s ∈ ss, goodSeg s) :
    FS.normalizePath ('/' :: joinSlash ss) cd = '/' :: joinSlash ss := by
  have h1 : startsWithL ('/' :: joinSlash ss) ['/'] = true := by
    simp [startsWithL]
  simp only [FS.normalizePath,
    if_neg (show ¬('/' :: joinSlash ss = []) by simp), h1, if_true]
  rw [segsOf_slash_join ss (fun s hs => goodSeg_pair s (h s hs)),
    foldSegs_dotFree ss (fun s hs => goodSeg_dots s (h s hs)) []]
  simp

theorem segsOf_canon (ss : List (List Char)) (h : ∀ s ∈ ss, goodSeg s) :
    segsOf (FS.normalizePath ('/' :: joinSlash ss) ['/']) = ss := by
  rw [normalizePath_canon ['/'] ss h]
  exact segsOf_slash_join ss (fun s hs => goodSeg_pair s (h s hs))

/-! ### Collapsing slashes -/

theorem collapse_cons (c : Char) (l : List Char) :
    ∃ t, collapseSlashes (c :: l) = c :: t := by
  induction l generalizing c with
  | nil => exact ⟨[], rfl⟩
  | cons d rest ih =>
    by_cases h : c = '/' ∧ d = '/'
    · obtain ⟨t, ht⟩ := ih d
      refine ⟨t, ?_⟩
      show collapseSlashes (c :: d :: rest) = c :: t
      rw [show collapseSlashes (c :: d :: rest) = collapseSlashes (d :: rest)
        from by simp [collapseSlashes, h], ht, h.1, h.2]
    · exact ⟨collapseSlashes (d :: rest), by simp [collapseSlashes, h]⟩

theorem collapse_idem (l : List Char) :
    collapseSlashes (collapseSlashes l) = collapseSlashes l := by
  have H : ∀ n (l : List Char), l.length ≤ n →
      collapseSlashes (collapseSlashes l) = collapseSlashes l := by
    intro n
    induction n with
    | zero =>
      intro l hl
      have : l = [] := by cases l <;> simp_all
      subst this; rfl
    | succ n ih =>
      intro l hl
      rcases l with _ | ⟨c, _ | ⟨d, rest⟩⟩
      · rfl
      · rfl
      · by_cases h : c = '/' ∧ d = '/'
        · rw [show collapseSlashes (c :: d :: rest) = collapseSlashes (d :: rest)
            from by simp [collapseSlashes, h]]
          exact ih (d :: rest) (by simp at hl ⊢; omega)
        · have e1 : collapseSlashes (c :: d :: rest) =
              c :: collapseSlashes (d :: rest) := by simp [collapseSlashes, h]
          obtain ⟨t, ht⟩ := collapse_cons d rest
          rw [e1, ht]
          have e2 : collapseSlashes (c :: d :: t) =
              c :: collapseSlashes (d :: t) := by simp [collapseSlashes, h]
          rw [e2, ← ht, ih (d :: rest) (by simp at hl ⊢; omega), ht]
  exact H l.length l le_rfl

theorem collapse_slashFree (s : List Char) (h : '/' ∉ s) :
    collapseSlashes s = s := by
  induction s with
  | nil => rfl
  | cons c cs ih =>
    cases cs with
    | nil => rfl
    | cons d rest =>
      have hc : c ≠ '/' := fun e => h (by simp [e])
      have hcd : ¬(c = '/' ∧ d = '/') := fun hh => hc hh.1
      have e1 : collapseSlashes (c :: d :: rest) =
          c :: collapseSlashes (d :: rest) := by simp [collapseSlashes, hcd]
      rw [e1, ih (fun hin => h (List.mem_cons_of_mem c hin))]

theorem collapse_sf_append (s l : List Char) (hsf : '/' ∉ s) :
    collapseSlashes (s ++ '/' :: l) = s ++ collapseSlashes ('/' :: l) := by
  induction s with
  | nil => simp
  | cons c cs ih =>
    have hc : c ≠ '/' := fun e => hsf (by simp [e])
    have hcs : '/' ∉ cs := fun hin => hsf (by simp [hin])
    cases cs with
    | nil =>
      show collapseSlashes (c :: '/' :: l) = c :: collapseSlashes ('/' :: l)
      simp [collapseSlashes, hc]
    | cons d rest =>
      have hcd : ¬(c = '/' ∧ d = '/') := fun hh => hc hh.1
      have e1 : collapseSlashes (c :: (d :: rest ++ '/' :: l)) =
          c :: collapseSlashes (d :: rest ++ '/' :: l) := by
        simp [collapseSlashes, hcd]
      rw [List.cons_append, e1, ih hcs]
      simp

theorem collapse_join (ss : List (List Char)) (h : ∀ s ∈ ss, goodSeg s) :
    collapseSlashes ('/' :: joinSlash ss) = '/' :: joinSlash ss := by
  induction ss with
  | nil => rfl
  | cons s rest ih =>
    have hs := h s (by simp)
    rcases s with _ | ⟨a, s'⟩
    · exact absurd rfl hs.1
    have ha : a ≠ '/' := fun e => hs.2.1 (by simp [e])
    have hcd : ¬('/' = '/' ∧ a = '/') := fun hh => ha hh.2
    cases rest with
    | nil =>
      show collapseSlashes ('/' :: a :: s') = '/' :: a :: s'
      have e1 : collapseSlashes ('/' :: a :: s') =
          '/' :: collapseSlashes (a :: s') := by simp [collapseSlashes, ha]
      rw [e1, collapse_slashFree (a :: s') hs.2.1]
    | cons t v =>
      rw [joinSlash_cons (a :: s') (t :: v) (by simp)]
      have e1 : collapseSlashes ('/' :: ((a :: s') ++ '/' :: joinSlash (t :: v))) =
          '/' :: collapseSlashes ((a :: s') ++ '/' :: joinSlash (t :: v)) := by
        simp [collapseSlashes, ha]
      rw [e1, collapse_sf_append (a :: s') (joinSlash (t :: v)) hs.2.1,
        ih (fun x hx => h x (by simp [hx]))]

/-! ### Shape of the Router normalization -/

theorem startsWithL_slash_iff (p : List Char) :
    startsWithL p ['/'] = true ↔ ∃ t, p = '/' :: t := by
  cases p with
  | nil => simp [startsWithL]
  | cons c t =>
    constructor
    · intro h1
      by_cases hc : c = '/'
      · exact ⟨t, by rw [hc]⟩
      · simp [startsWithL, hc] at h1
    · rintro ⟨u, hu⟩
      rw [hu]
      simp [startsWithL]

theorem mm_norm_shape (cd p : List Char) (h : startsWithL p ['/'] = false) :
    ∃ ss, MM.normalizePath cd p = '/' :: joinSlash ss ∧ ∀ s ∈ ss, goodSeg s := by
  refine ⟨foldSegs [] (segsOf (cd ++ '/' :: p)), ?_, ?_⟩
  · simp only [MM.normalizePath, h, Bool.false_eq_true, if_false]
  · exact fun s hs => goodSegs_fold _ s hs

theorem mm_norm_head (cd p : List Char) :
    ∃ t, MM.normalizePath cd p = '/' :: t := by
  by_cases h : startsWithL p ['/'] = true
  · obtain ⟨u, hu⟩ := (startsWithL_slash_iff p).mp h
    obtain ⟨t, ht⟩ := collapse_cons '/' u
    refine ⟨t, ?_⟩
    simp only [MM.normalizePath, h, if_true]
    rw [hu, ht]
  · obtain ⟨ss, he, _⟩ := mm_norm_shape cd p (by simpa using h)
    exact ⟨joinSlash ss, he⟩

theorem mm_norm_collapse_fixed (cd p : List Char) :
    collapseSlashes (MM.normalizePath cd p) = MM.normalizePath cd p := by
  by_cases h : startsWithL p ['/'] = true
  · simp only [MM.normalizePath, h, if_true]
    exact collapse_idem p
  · obtain ⟨ss, he, hg⟩ := mm_norm_shape cd p (by simpa using h)
    rw [he]
    exact collapse_join ss hg

theorem mm_norm_of_norm (cd2 cd p : List Char) :
    MM.normalizePath cd2 (MM.normalizePath cd p) = MM.normalizePath cd p := by
  obtain ⟨t, ht⟩ := mm_norm_head cd p
  have h1 : startsWithL (MM.normalizePath cd p) ['/'] = true := by
    rw [ht]; simp [startsWithL]
  set q := MM.normalizePath cd p with hq
  rw [MM.normalizePath, h1]
  simp only [if_true]
  exact mm_norm_collapse_fixed cd p

theorem fs_norm_idem (p cd : List Char) :
    FS.normalizePath (FS.normalizePath p cd) cd = FS.normalizePath p cd := by
  obtain ⟨ss, he, _, hgood⟩ := norm_shape p cd
  rw [he]
  exact normalizePath_canon cd ss hgood

/-! ### Children maps, descent and in-place update -/

theorem childGet_set_self (ch : List (List Char × FSNode)) (k : List Char)
    (v : FSNode) : childGet (childSet ch k v) k = some v := by
  induction ch with
  | nil => simp [childSet, childGet]
  | cons c rest ih =>
    rcases c with ⟨k1, v1⟩
    by_cases h : k1 = k
    · simp [childSet, childGet, h]
    · simp [childSet, childGet, h, ih]

theorem childGet_none_of_not_mem (ch : List (List Char × FSNode))
    (k : List Char) (h : k ∉ ch.map (fun c => c.1)) : childGet ch k = none := by
  induction ch with
  | nil => rfl
  | cons c rest ih =>
    rcases c with ⟨k1, v1⟩
    simp only [List.map_cons, List.mem_cons] at h
    push_neg at h
    rw [childGet, if_neg (fun e => h.1 e.symm)]
    exact ih h.2

theorem childSet_absent (ch : List (List Char × FSNode)) (k : List Char)
    (v : FSNode) (h : childGet ch k = none) :
    childSet ch k v = ch ++ [(k, v)] := by
  induction ch with
  | nil => rfl
  | cons c rest ih =>
    rcases c with ⟨k1, v1⟩
    rw [childGet] at h
    by_cases h1 : k1 = k
    · rw [if_pos h1] at h; simp at h
    · rw [if_neg h1] at h
      rw [childSet, if_neg h1, ih h]
      simp

theorem childDelete_fst (ch : List (List Char × FSNode)) (k : List Char) :
    (childDelete ch k).1 = childHas ch k := by
  induction ch with
  | nil => rfl
  | cons c rest ih =>
    rcases c with ⟨k1, v1⟩
    by_cases h1 : k1 = k
    · simp [childDelete, childHas, childGet, h1]
    · simp [childDelete, childHas, childGet, h1]
      rw [← childHas]
      exact ih

theorem childDelete_get_self (ch : List (List Char × FSNode)) (k : List Char)
    (hnd : keysNodup (ch.map (fun c => c.1)) = true) :
    childGet (childDelete ch k).2 k = none := by
  induction ch with
  | nil => rfl
  | cons c rest ih =>
    rcases c with ⟨k1, v1⟩
    simp only [List.map_cons] at hnd
    have hx : k1 ∉ rest.map (fun c => c.1) ∧
        keysNodup (rest.map (fun c => c.1)) = true := by
      by_cases hmem : k1 ∈ rest.map (fun c => c.1)
      · rw [keysNodup, if_pos hmem] at hnd; exact absurd hnd (by simp)
      · rw [keysNodup, if_neg hmem] at hnd; exact ⟨hmem, hnd⟩
    by_cases h1 : k1 = k
    · rw [childDelete, if_pos h1]
      exact childGet_none_of_not_mem rest k (h1 ▸ hx.1)
    · rw [childDelete, if_neg h1]
      show childGet ((k1, v1) :: (childDelete rest k).2) k = none
      rw [childGet, if_neg h1]
      exact ih hx.2

theorem descend_nil (n : FSNode) : descend n [] = some n := by
  cases n <;> rfl

theorem modifyAt_nil (n : FSNode) (f : FSNode → Option FSNode) :
    modifyAt n [] f = f n := by
  cases n <;> rfl

theorem descend_append (n : FSNode) (xs ys : List (List Char)) :
    descend n (xs ++ ys) =
      match descend n xs with
      | none => none
      | some m => descend m ys := by
  induction xs generalizing n with
  | nil => simp [descend_nil]
  | cons seg rest ih =>
    cases n with
    | file c => simp [descend]
    | dir ch =>
      rw [List.cons_append]
      show (match childGet ch seg with
        | none => none
        | some next => descend next (rest ++ ys)) = _
      cases hg : childGet ch seg with
      | none => simp [descend, hg]
      | some next => simp [descend, hg, ih next]

theorem descend_take_dir (xs : List (List Char)) :
    ∀ (n m : FSNode), descend n xs = some m → ∀ k, k < xs.length →
      ∃ ch, descend n (xs.take k) = some (FSNode.dir ch) := by
  induction xs with
  | nil => intro n m h k hk; simp at hk
  | cons seg rest ih =>
    intro n m h k hk
    cases n with
    | file c => simp [descend] at h
    | dir ch =>
      simp only [descend] at h
      cases hg : childGet ch seg <;> simp only [hg] at h
      · simp at h
      case some next =>
        cases k with
        | zero => exact ⟨ch, rfl⟩
        | succ j =>
          obtain ⟨ch2, hch2⟩ := ih next m h j (by simpa using hk)
          exact ⟨ch2, by simp [List.take_succ_cons, descend, hg, hch2]⟩

theorem modifyAt_sound (xs : List (List Char)) :
    ∀ (n n2 : FSNode) (f : FSNode → Option FSNode),
      modifyAt n xs f = some n2 →
      ∃ m m2, descend n xs = some m ∧ f m = some m2 ∧ descend n2 xs = some m2 := by
  induction xs with
  | nil =>
    intro n n2 f h
    exact ⟨n, n2, descend_nil n, by simpa [modifyAt_nil] using h, descend_nil n2⟩
  | cons seg rest ih =>
    intro n n2 f h
    cases n with
    | file c => simp [modifyAt] at h
    | dir ch =>
      simp only [modifyAt] at h
      cases hg : childGet ch seg <;> simp only [hg] at h
      · simp at h
      case some child =>
        cases hm : modifyAt child rest f <;> simp only [hm] at h
        · simp at h
        case some child2 =>
          have hn2 : n2 = FSNode.dir (childSet ch seg child2) := by
            simpa using h.symm
          obtain ⟨m, m2, h1, h2, h3⟩ := ih child child2 f hm
          refine ⟨m, m2, ?_, h2, ?_⟩
          · simp [descend, hg, h1]
          · rw [hn2]; simp [descend, childGet_set_self, h3]

theorem modifyAt_take_dir (xs : List (List Char)) :
    ∀ (n n2 : FSNode) (f : FSNode → Option FSNode),
      modifyAt n xs f = some n2 → ∀ k, k < xs.length →
      (∃ ch, descend n (xs.take k) = some (FSNode.dir ch)) ∧
      (∃ ch, descend n2 (xs.take k) = some (FSNode.dir ch)) := by
  induction xs with
  | nil => intro n n2 f h k hk; simp at hk
  | cons seg rest ih =>
    intro n n2 f h k hk
    cases n with
    | file c => simp [modifyAt] at h
    | dir ch =>
      simp only [modifyAt] at h
      cases hg : childGet ch seg <;> simp only [hg] at h
      · simp at h
      case some child =>
        cases hm : modifyAt child rest f <;> simp only [hm] at h
        · simp at h
        case some child2 =>
          have hn2 : n2 = FSNode.dir (childSet ch seg child2) := by
            simpa using h.symm
          cases k with
          | zero =>
            exact ⟨⟨ch, rfl⟩, ⟨childSet ch seg child2, by
              rw [hn2]; simp [descend_nil]⟩⟩
          | succ j =>
            have hj := ih child child2 f hm j (by simpa using hk)
            constructor
            · obtain ⟨ch2, hch2⟩ := hj.1
              exact ⟨ch2, by simp [List.take_succ_cons, descend, hg, hch2]⟩
            · obtain ⟨ch2, hch2⟩ := hj.2
              refine ⟨ch2, ?_⟩
              rw [hn2]
              simp [List.take_succ_cons, descend, childGet_set_self, hch2]

theorem modifyAt_isSome_eq (xs : List (List Char)) :
    ∀ (n : FSNode) (f : FSNode → Option FSNode),
      (modifyAt n xs f).isSome = ((descend n xs).bind f).isSome := by
  induction xs with
  | nil => intro n f; simp [modifyAt_nil, descend_nil]
  | cons seg rest ih =>
    intro n f
    cases n with
    | file c => simp [modifyAt, descend]
    | dir ch =>
      cases hg : childGet ch seg with
      | none => simp [modifyAt, descend, hg]
      | some child =>
        simp only [modifyAt, descend, hg]
        have h1 : (match modifyAt child rest f with
            | none => none
            | some child2 =>
              some (FSNode.dir (childSet ch seg child2)) : Option FSNode).isSome =
            (modifyAt child rest f).isSome := by
          cases modifyAt child rest f <;> rfl
        rw [h1]
        exact ih child f

theorem childrenWF_get :
    ∀ (ch : List (List Char × FSNode)) (k : List Char) (n : FSNode),
      childrenWF ch = true → childGet ch k = some n → nodeWF n = true := by
  intro ch
  induction ch with
  | nil => intro k n h hg; simp [childGet] at hg
  | cons c rest ih =>
    intro k n h hg
    rcases c with ⟨k1, v1⟩
    simp only [childrenWF, Bool.and_eq_true] at h
    by_cases h1 : k1 = k
    · rw [childGet, if_pos h1] at hg
      cases hg
      exact h.1
    · rw [childGet, if_neg h1] at hg
      exact ih k n h.2 hg

theorem descend_wf :
    ∀ (xs : List (List Char)) (n m : FSNode),
      nodeWF n = true → descend n xs = some m → nodeWF m = true := by
  intro xs
  induction xs with
  | nil =>
    intro n m h hd
    rw [descend_nil] at hd
    cases hd
    exact h
  | cons seg rest ih =>
    intro n m h hd
    cases n with
    | file c => simp [descend] at hd
    | dir ch =>
      simp only [descend] at hd
      cases hg : childGet ch seg <;> simp only [hg] at hd
      · simp at hd
      case some next =>
        have h2 : childrenWF ch = true := by
          simp only [nodeWF, Bool.and_eq_true] at h
          exact h.2
        exact ih next m (childrenWF_get ch seg next h2 hg) hd

/-! ### Splitting a canonical path into parent and name -/

theorem lastSlash_slashFree (s : List Char) (h : '/' ∉ s) :
    lastSlash s = none := by
  induction s with
  | nil => rfl
  | cons c cs ih =>
    have hc : c ≠ '/' := fun e => h (by simp [e])
    have hcs : lastSlash cs = none := ih (fun hin => h (by simp [hin]))
    simp [lastSlash, hcs, hc]

theorem lastSlash_append (a b : List Char) :
    lastSlash (a ++ b) =
      match lastSlash b with
      | some i => some (a.length + i)
      | none => lastSlash a := by
  induction a with
  | nil => cases hb : lastSlash b <;> simp [hb, lastSlash]
  | cons c a2 ih =>
    rw [List.cons_append]
    show (match lastSlash (a2 ++ b) with
      | some i => some (i + 1)
      | none => if c = '/' then some (0 : Nat) else none) = _
    rw [ih]
    cases hb : lastSlash b with
    | some i =>
      show some (a2.length + i + 1) = some ((c :: a2).length + i)
      exact congrArg some (by simp; omega)
    | none =>
      show (match lastSlash a2 with
        | some i => some (i + 1)
        | none => if c = '/' then some (0 : Nat) else none) = lastSlash (c :: a2)
      cases ha : lastSlash a2 <;> simp [lastSlash, ha]

theorem splitParent_canon (ss : List (List Char)) (s : List Char)
    (h : ∀ x ∈ ss ++ [s], goodSeg x) :
    splitParent ('/' :: joinSlash (ss ++ [s])) = ('/' :: joinSlash ss, s) := by
  have hsf : '/' ∉ s := (h s (by simp)).2.1
  have hb : lastSlash ('/' :: s) = some 0 := by
    simp [lastSlash, lastSlash_slashFree s hsf]
  cases hss : ss with
  | nil =>
    have hj : joinSlash (([] : List (List Char)) ++ [s]) = s := by simp [joinSlash]
    rw [hj]
    simp only [splitParent, hb]
    simp [joinSlash]
  | cons t ss2 =>
    rw [← hss]
    have hne : ss ≠ [] := by simp [hss]
    rw [joinSlash_append_single ss s hne]
    have he : ('/' :: (joinSlash ss ++ '/' :: s)) =
        ('/' :: joinSlash ss) ++ '/' :: s := by simp
    rw [he]
    have hls : lastSlash (('/' :: joinSlash ss) ++ '/' :: s) =
        some (('/' :: joinSlash ss).length) := by
      rw [lastSlash_append, hb]
      simp
    simp only [splitParent, hls]
    have hd : (('/' :: joinSlash ss) ++ '/' :: s).drop
        (('/' :: joinSlash ss).length + 1) = s := by
      rw [List.drop_append 1]
      rfl
    simp [List.take_left, hd]

theorem findNode_eq_descend (root : FSNode) (q cd : List Char) :
    FS.findNode root q cd = descend root (segsOf (FS.normalizePath q cd)) := by
  rw [FS.findNode]
  by_cases h : FS.normalizePath q cd = ['/']
  · rw [if_pos h, h, segsOf_root]
    exact (descend_nil root).symm
  · rw [if_neg h]

theorem parent_decomp (p cd : List Char) (h : FS.normalizePath p cd ≠ ['/']) :
    ∃ ss s, segsOf (FS.normalizePath p cd) = ss ++ [s] ∧
      splitParent (FS.normalizePath p cd) = ('/' :: joinSlash ss, s) ∧
      FS.normalizePath ('/' :: joinSlash ss) ['/'] = '/' :: joinSlash ss ∧
      segsOf (FS.normalizePath ('/' :: joinSlash ss) ['/']) = ss ∧
      (∀ x ∈ ss, goodSeg x) ∧ goodSeg s := by
  obtain ⟨tt, he, hsegs, hgood⟩ := norm_shape p cd
  have htne : tt ≠ [] := by
    intro h0
    exact h ((norm_root_iff p cd).mpr (by rw [hsegs, h0]))
  have hdec : tt = tt.dropLast ++ [tt.getLast htne] :=
    (List.dropLast_append_getLast htne).symm
  refine ⟨tt.dropLast, tt.getLast htne, ?_, ?_, ?_, ?_, ?_, ?_⟩
  · rw [hsegs]; exact hdec
  · rw [he]
    conv_lhs => rw [hdec]
    exact splitParent_canon _ _ (hdec ▸ hgood)
  · exact normalizePath_canon ['/'] tt.dropLast
      (fun x hx => hgood x (List.dropLast_subset tt hx))
  · exact segsOf_canon tt.dropLast
      (fun x hx => hgood x (List.dropLast_subset tt hx))
  · exact fun x hx => hgood x (List.dropLast_subset tt hx)
  · exact hgood _ (List.getLast_mem htne)

theorem descend_single (ch : List (List Char × FSNode)) (s : List Char) :
    descend (FSNode.dir ch) [s] = childGet ch s := by
  cases hg : childGet ch s <;> simp [descend, hg, descend_nil]

theorem descend_snoc (root : FSNode) (ss : List (List Char)) (s : List Char)
    (ch : List (List Char × FSNode))
    (h : descend root ss = some (FSNode.dir ch)) :
    descend root (ss ++ [s]) = childGet ch s := by
  rw [descend_append, h]
  exact descend_single ch s

theorem modifyAt_make (root : FSNode) (ss : List (List Char))
    (f : FSNode → Option FSNode) (m m2 : FSNode)
    (hd : descend root ss = some m) (hf : f m = some m2) :
    ∃ root2, modifyAt root ss f = some root2 ∧ descend root2 ss = some m2 := by
  have h1 : (modifyAt root ss f).isSome = true := by
    rw [modifyAt_isSome_eq ss root f, hd]
    simp [hf]
  obtain ⟨root2, hroot2⟩ := Option.isSome_iff_exists.mp h1
  obtain ⟨m3, m4, h2, h3, h4⟩ := modifyAt_sound ss root root2 f hroot2
  rw [hd] at h2
  cases h2
  rw [hf] at h3
  cases h3
  exact ⟨root2, hroot2, h4⟩

theorem findNode_none_ne_root (root : FSNode) (p cd : List Char)
    (h : FS.findNode root p cd = none) : FS.normalizePath p cd ≠ ['/'] := by
  intro he
  rw [FS.findNode, if_pos he] at h
  exact absurd h (by simp)

/-! ### The claims -/

/-- C9: path normalization is pure (it is a function of the path and the
current directory alone) and idempotent, both for the Namespace
normalization `FileSystem.normalizePath` and for the Router normalization
`MountManager.normalizePath`: normalizing an already-normalized path
returns it unchanged. -/
theorem C9_normalize_idempotent (p cd cd2 : List Char) :
    FS.normalizePath (FS.normalizePath p cd) cd = FS.normalizePath p cd ∧
    MM.normalizePath cd2 (MM.normalizePath cd2 p) = MM.normalizePath cd2 p :=
  ⟨fs_norm_idem p cd, mm_norm_of_norm cd2 cd2 p⟩

/-- C1 counterexample: the Router normalization does not fold `..` on an
absolute input — `MountManager.normalizePath("/../../a")` returns
`"/../../a"` unchanged, not `"/a"` as the claim states (while the
Namespace normalization `FileSystem.normalizePath` does return `"/a"`). -/
theorem C1_absolute_dotdot_not_folded :
    MM.normalizePath ['/'] "/../../a".data = "/../../a".data ∧
    MM.normalizePath ['/'] "/../../a".data ≠ "/a".data ∧
    FS.normalizePath "/../../a".data ['/'] = "/a".data :=
  ⟨rfl, by decide, rfl⟩

/-- C1 amended: the Router normalization applies the folding rules only to
relative inputs (seeded with the Router current directory), where it agrees
with the Namespace normalization; an absolute input only has its repeated
separators collapsed, so `normalizePath("/../../a") = "/../../a"`. -/
theorem C1_router_normalize_amended (p cd : List Char) (hp : p ≠ []) :
    MM.normalizePath cd p =
      if startsWithL p ['/'] = true then collapseSlashes p
      else FS.normalizePath p cd := by
  by_cases h : startsWithL p ['/'] = true
  · simp only [MM.normalizePath, h, if_true]
  · have hb : startsWithL p ['/'] = false := by simpa using h
    simp only [MM.normalizePath, FS.normalizePath, hb, if_neg hp]
    simp

theorem C1_router_normalize_amended_witness :
    ("a/./b".data ≠ []) ∧
    MM.normalizePath "/x".data "a/./b".data =
      FS.normalizePath "a/./b".data "/x".data :=
  ⟨by decide, by
    have h := C1_router_normalize_amended "a/./b".data "/x".data (by decide)
    rwa [if_neg (by decide)] at h⟩

/-- C4 counterexample: on an empty Namespace the path `/a/b.txt` does not
resolve, yet `writeFile` fails (the parent `/a` is missing), so write does
not implicitly create the file for every non-resolving path. -/
theorem C4_write_missing_parent_fails :
    FS.findNode (FSNode.dir []) "/a/b.txt".data ['/'] = none ∧
    FS.writeFile (FSNode.dir []) "/a/b.txt".data "v" ['/'] = none ∧
    FS.readFile (FSNode.dir []) "/a/b.txt".data ['/'] = none :=
  ⟨rfl, rfl, rfl⟩

/-- C4 amended: `FileSystem.writeFile` never fails merely because the
target file is absent: when the path does not resolve but its parent path
resolves to a Directory, the write implicitly creates the file with the
given content, after which `readFile` returns that content (on an empty
Namespace, `writeFile("/new.txt", "v")` is such a case); `writeFile` fails
when the path resolves to a Directory. -/
theorem C4_write_autocreate_spec (root : FSNode) (p cd : List Char)
    (c : String) :
    (FS.findNode root p cd = none →
      (∃ ch, FS.findNode root (splitParent (FS.normalizePath p cd)).1 ['/'] =
        some (FSNode.dir ch)) →
      ∃ root2, FS.writeFile root p c cd = some root2 ∧
        FS.readFile root2 p cd = some c) ∧
    (∀ ch, FS.findNode root p cd = some (FSNode.dir ch) →
      FS.writeFile root p c cd = none) := by
  constructor
  · intro hmiss hparent
    obtain ⟨ch, hch⟩ := hparent
    have hne : FS.normalizePath p cd ≠ ['/'] := findNode_none_ne_root root p cd hmiss
    obtain ⟨ss, s, hsegs, hsp, hcanon, hpsegs, hgss, hgs⟩ := parent_decomp p cd hne
    rw [hsp] at hch
    rw [findNode_eq_descend, hpsegs] at hch
    have hdm : descend root (segsOf (FS.normalizePath p cd)) = none := by
      rw [← findNode_eq_descend]; exact hmiss
    rw [hsegs, descend_snoc root ss s ch hch] at hdm
    have hf : (fun parentNode =>
        match parentNode with
        | FSNode.dir ch2 =>
          if childHas ch2 (splitParent (FS.normalizePath p cd)).2 then none
          else some (FSNode.dir (childSet ch2
            (splitParent (FS.normalizePath p cd)).2 (FSNode.file c)))
        | FSNode.file _ => none) (FSNode.dir ch) =
        some (FSNode.dir (childSet ch s (FSNode.file c))) := by
      rw [hsp]
      simp [childHas, hdm]
    obtain ⟨root2, hr2, hd2⟩ := modifyAt_make root
      (segsOf (FS.normalizePath (splitParent (FS.normalizePath p cd)).1 ['/']))
      (fun parentNode =>
        match parentNode with
        | FSNode.dir ch2 =>
          if childHas ch2 (splitParent (FS.normalizePath p cd)).2 then none
          else some (FSNode.dir (childSet ch2
            (splitParent (FS.normalizePath p cd)).2 (FSNode.file c)))
        | FSNode.file _ => none)
      (FSNode.dir ch) (FSNode.dir (childSet ch s (FSNode.file c)))
      (by rw [hsp, hpsegs]; exact hch) hf
    have hwrite : FS.writeFile root p c cd = some root2 := by
      simp only [FS.writeFile, hmiss]
      simp only [FS.createFile, if_neg hne]
      exact hr2
    have hfind2 : FS.findNode root2 p cd = some (FSNode.file c) := by
      rw [findNode_eq_descend, hsegs]
      rw [hsp, hpsegs] at hd2
      rw [descend_snoc root2 ss s _ hd2, childGet_set_self]
    refine ⟨root2, hwrite, ?_⟩
    simp only [FS.readFile, hfind2]
  · intro ch h
    simp only [FS.writeFile, h]

theorem modifyAt_none_of_descend_none (root : FSNode) (ss : List (List Char))
    (f : FSNode → Option FSNode) (h : descend root ss = none) :
    modifyAt root ss f = none := by
  have h3 : (modifyAt root ss f).isSome = false := by
    rw [modifyAt_isSome_eq ss root f, h]
    rfl
  cases hm : modifyAt root ss f with
  | none => rfl
  | some x => rw [hm] at h3; simp at h3

theorem modifyAt_none_of_f_none (root : FSNode) (ss : List (List Char))
    (f : FSNode → Option FSNode) (m : FSNode)
    (hd : descend root ss = some m) (hf : f m = none) :
    modifyAt root ss f = none := by
  have h3 : (modifyAt root ss f).isSome = false := by
    rw [modifyAt_isSome_eq ss root f, hd]
    simp [hf]
  cases hm : modifyAt root ss f with
  | none => rfl
  | some x => rw [hm] at h3; simp at h3

theorem childHas_false_get (ch : List (List Char × FSNode)) (nm : List Char)
    (h : childHas ch nm = false) : childGet ch nm = none := by
  cases hg : childGet ch nm with
  | none => rfl
  | some x => rw [childHas, hg] at h; simp at h

/-- C8: `FileSystem.mkdir` and `FileSystem.createFile` fail when the path
normalizes to root, when the parent path does not resolve to a Directory
(missing or a File), or when a child with the target name already exists of
either type; on success each inserts exactly one new binding — an empty
Directory, respectively a File with the given content — at the end of that
parent's children map.  The two concrete consequences of the claim — a
second `mkdir("/d")` fails after a successful first, and `mkdir("/x")`
fails after `createFile("/x")` — close the statement. -/
theorem C8_mkdir_createFile_spec (root : FSNode) (p cd : List Char)
    (c : String) :
    (FS.normalizePath p cd = ['/'] →
      FS.mkdir root p cd = none ∧ FS.createFile root p c cd = none) ∧
    (FS.findNode root (splitParent (FS.normalizePath p cd)).1 ['/'] = none →
      FS.mkdir root p cd = none ∧ FS.createFile root p c cd = none) ∧
    (∀ s2, FS.findNode root (splitParent (FS.normalizePath p cd)).1 ['/'] =
        some (FSNode.file s2) →
      FS.mkdir root p cd = none ∧ FS.createFile root p c cd = none) ∧
    (∀ ch, FS.normalizePath p cd ≠ ['/'] →
      FS.findNode root (splitParent (FS.normalizePath p cd)).1 ['/'] =
        some (FSNode.dir ch) →
      (childHas ch (splitParent (FS.normalizePath p cd)).2 = true →
        FS.mkdir root p cd = none ∧ FS.createFile root p c cd = none) ∧
      (childHas ch (splitParent (FS.normalizePath p cd)).2 = false →
        (∃ root2, FS.mkdir root p cd = some root2 ∧
          FS.findNode root2 (splitParent (FS.normalizePath p cd)).1 ['/'] =
            some (FSNode.dir (ch ++ [((splitParent (FS.normalizePath p cd)).2,
              FSNode.dir [])]))) ∧
        (∃ root3, FS.createFile root p c cd = some root3 ∧
          FS.findNode root3 (splitParent (FS.normalizePath p cd)).1 ['/'] =
            some (FSNode.dir (ch ++ [((splitParent (FS.normalizePath p cd)).2,
              FSNode.file c)]))))) ∧
    (∃ r1, FS.mkdir (FSNode.dir []) ['/', 'd'] ['/'] = some r1 ∧
      FS.mkdir r1 ['/', 'd'] ['/'] = none) ∧
    (∃ r2, FS.createFile (FSNode.dir []) ['/', 'x'] c ['/'] = some r2 ∧
      FS.mkdir r2 ['/', 'x'] ['/'] = none) := by
  refine ⟨?_, ?_, ?_, ?_, ⟨_, rfl, rfl⟩, ⟨_, rfl, rfl⟩⟩
  · intro h
    exact ⟨by simp only [FS.mkdir, if_pos h],
      by simp only [FS.createFile, if_pos h]⟩
  · intro h
    have hd : descend root (segsOf (FS.normalizePath
        (splitParent (FS.normalizePath p cd)).1 ['/'])) = none := by
      rw [← findNode_eq_descend]; exact h
    by_cases hne : FS.normalizePath p cd = ['/']
    · exact ⟨by simp only [FS.mkdir, if_pos hne],
        by simp only [FS.createFile, if_pos hne]⟩
    · constructor
      · simp only [FS.mkdir, if_neg hne]
        exact modifyAt_none_of_descend_none root _ _ hd
      · simp only [FS.createFile, if_neg hne]
        exact modifyAt_none_of_descend_none root _ _ hd
  · intro s2 h
    have hd : descend root (segsOf (FS.normalizePath
        (splitParent (FS.normalizePath p cd)).1 ['/'])) =
        some (FSNode.file s2) := by
      rw [← findNode_eq_descend]; exact h
    by_cases hne : FS.normalizePath p cd = ['/']
    · exact ⟨by simp only [FS.mkdir, if_pos hne],
        by simp only [FS.createFile, if_pos hne]⟩
    · constructor
      · simp only [FS.mkdir, if_neg hne]
        exact modifyAt_none_of_f_none root _ _ _ hd rfl
      · simp only [FS.createFile, if_neg hne]
        exact modifyAt_none_of_f_none root _ _ _ hd rfl
  · intro ch hne h
    have hd : descend root (segsOf (FS.normalizePath
        (splitParent (FS.normalizePath p cd)).1 ['/'])) =
        some (FSNode.dir ch) := by
      rw [← findNode_eq_descend]; exact h
    constructor
    · intro hhas
      constructor
      · simp only [FS.mkdir, if_neg hne]
        exact modifyAt_none_of_f_none root _ _ _ hd (by simp [hhas])
      · simp only [FS.createFile, if_neg hne]
        exact modifyAt_none_of_f_none root _ _ _ hd (by simp [hhas])
    · intro hhas
      have hget := childHas_false_get ch (splitParent (FS.normalizePath p cd)).2 hhas
      constructor
      · obtain ⟨root2, hr2, hd2⟩ := modifyAt_make root
          (segsOf (FS.normalizePath (splitParent (FS.normalizePath p cd)).1 ['/']))
          (fun parentNode =>
            match parentNode with
            | FSNode.dir ch2 =>
              if childHas ch2 (splitParent (FS.normalizePath p cd)).2 then none
              else some (FSNode.dir (childSet ch2
                (splitParent (FS.normalizePath p cd)).2 (FSNode.dir [])))
            | FSNode.file _ => none)
          (FSNode.dir ch)
          (FSNode.dir (childSet ch (splitParent (FS.normalizePath p cd)).2
            (FSNode.dir [])))
          hd (by simp [hhas])
        rw [childSet_absent ch _ _ hget] at hd2
        refine ⟨root2, ?_, ?_⟩
        · simp only [FS.mkdir, if_neg hne]
          exact hr2
        · rw [findNode_eq_descend]
          exact hd2
      · obtain ⟨root3, hr3, hd3⟩ := modifyAt_make root
          (segsOf (FS.normalizePath (splitParent (FS.normalizePath p cd)).1 ['/']))
          (fun parentNode =>
            match parentNode with
            | FSNode.dir ch2 =>
              if childHas ch2 (splitParent (FS.normalizePath p cd)).2 then none
              else some (FSNode.dir (childSet ch2
                (splitParent (FS.normalizePath p cd)).2 (FSNode.file c)))
            | FSNode.file _ => none)
          (FSNode.dir ch)
          (FSNode.dir (childSet ch (splitParent (FS.normalizePath p cd)).2
            (FSNode.file c)))
          hd (by simp [hhas])
        rw [childSet_absent ch _ _ hget] at hd3
        refine ⟨root3, ?_, ?_⟩
        · simp only [FS.createFile, if_neg hne]
          exact hr3
        · rw [findNode_eq_descend]
          exact hd3

theorem descend_append_none (n : FSNode) (xs ext : List (List Char))
    (h : descend n xs = none) : descend n (xs ++ ext) = none := by
  rw [descend_append, h]

theorem remove_deleted_descend (root root2 : FSNode) (p cd : List Char)
    (hwf : nodeWF root = true)
    (hne : FS.normalizePath p cd ≠ ['/'])
    (hrem : FS.remove root p cd = some root2) :
    ∀ ext, descend root2 (segsOf (FS.normalizePath p cd) ++ ext) = none := by
  obtain ⟨ss, s, hsegs, hsp, hcanon, hpsegs, hgss, hgs⟩ := parent_decomp p cd hne
  simp only [FS.remove, if_neg hne] at hrem
  obtain ⟨m, m2, h1, h2, h3⟩ := modifyAt_sound _ root root2 _ hrem
  cases m with
  | file s2 => simp at h2
  | dir ch =>
    have h2a : (if (childDelete ch (splitParent (FS.normalizePath p cd)).2).1 then
        some (FSNode.dir (childDelete ch (splitParent (FS.normalizePath p cd)).2).2)
        else none) = some m2 := h2
    by_cases hb : (childDelete ch (splitParent (FS.normalizePath p cd)).2).1 = true
    · rw [if_pos hb] at h2a
      have hm2 : m2 = FSNode.dir
          (childDelete ch (splitParent (FS.normalizePath p cd)).2).2 := by
        simpa using h2a.symm
      have hwfch : nodeWF (FSNode.dir ch) = true := descend_wf _ root _ hwf h1
      have hnd : keysNodup (ch.map (fun x => x.1)) = true := by
        simp only [nodeWF, Bool.and_eq_true] at hwfch
        exact hwfch.1
      intro ext
      apply descend_append_none
      rw [hsegs]
      rw [hsp, hpsegs] at h3
      rw [hsp] at hm2
      simp only at hm2
      rw [hm2] at h3
      rw [descend_snoc root2 ss s _ h3]
      exact childDelete_get_self ch s hnd
    · rw [if_neg hb] at h2a
      simp at h2a

/-- C7: `FileSystem.remove` is non-recursive with no "directory not empty"
guard: whenever the parent resolves to a Directory whose children contain
the target name — in particular for a Directory with children — remove
succeeds and silently discards the entire subtree, after which every
descendant segment path (the removed path and every extension of it) is
unresolvable by `findNode`; remove fails for the root and for any path
whose parent does not resolve to a Directory or does not contain the
name. -/
theorem C7_remove_spec (root : FSNode) (p cd : List Char)
    (hwf : nodeWF root = true) :
    (FS.normalizePath p cd = ['/'] → FS.remove root p cd = none) ∧
    (FS.findNode root (splitParent (FS.normalizePath p cd)).1 ['/'] = none →
      FS.remove root p cd = none) ∧
    (∀ s2, FS.findNode root (splitParent (FS.normalizePath p cd)).1 ['/'] =
        some (FSNode.file s2) → FS.remove root p cd = none) ∧
    (∀ ch, FS.findNode root (splitParent (FS.normalizePath p cd)).1 ['/'] =
        some (FSNode.dir ch) →
      childHas ch (splitParent (FS.normalizePath p cd)).2 = false →
      FS.remove root p cd = none) ∧
    (∀ ch, FS.normalizePath p cd ≠ ['/'] →
      FS.findNode root (splitParent (FS.normalizePath p cd)).1 ['/'] =
        some (FSNode.dir ch) →
      childHas ch (splitParent (FS.normalizePath p cd)).2 = true →
      ∃ root2, FS.remove root p cd = some root2 ∧
        ∀ ext, descend root2 (segsOf (FS.normalizePath p cd) ++ ext) = none) ∧
    (∀ q cd2 ext root2, FS.remove root p cd = some root2 →
      segsOf (FS.normalizePath q cd2) = segsOf (FS.normalizePath p cd) ++ ext →
      FS.findNode root2 q cd2 = none) := by
  refine ⟨?_, ?_, ?_, ?_, ?_, ?_⟩
  · intro h
    simp only [FS.remove, if_pos h]
  · intro h
    have hd : descend root (segsOf (FS.normalizePath
        (splitParent (FS.normalizePath p cd)).1 ['/'])) = none := by
      rw [← findNode_eq_descend]; exact h
    by_cases hne : FS.normalizePath p cd = ['/']
    · simp only [FS.remove, if_pos hne]
    · simp only [FS.remove, if_neg hne]
      exact modifyAt_none_of_descend_none root _ _ hd
  · intro s2 h
    have hd : descend root (segsOf (FS.normalizePath
        (splitParent (FS.normalizePath p cd)).1 ['/'])) =
        some (FSNode.file s2) := by
      rw [← findNode_eq_descend]; exact h
    by_cases hne : FS.normalizePath p cd = ['/']
    · simp only [FS.remove, if_pos hne]
    · simp only [FS.remove, if_neg hne]
      exact modifyAt_none_of_f_none root _ _ _ hd rfl
  · intro ch h hhas
    have hd : descend root (segsOf (FS.normalizePath
        (splitParent (FS.normalizePath p cd)).1 ['/'])) =
        some (FSNode.dir ch) := by
      rw [← findNode_eq_descend]; exact h
    by_cases hne : FS.normalizePath p cd = ['/']
    · simp only [FS.remove, if_pos hne]
    · simp only [FS.remove, if_neg hne]
      refine modifyAt_none_of_f_none root _ _ _ hd ?_
      have hb : (childDelete ch (splitParent (FS.normalizePath p cd)).2).1 = false := by
        rw [childDelete_fst]; exact hhas
      show (if (childDelete ch (splitParent (FS.normalizePath p cd)).2).1 then
          some (FSNode.dir (childDelete ch (splitParent (FS.normalizePath p cd)).2).2)
          else none) = none
      rw [hb]
      simp
  · intro ch hne h hhas
    have hd : descend root (segsOf (FS.normalizePath
        (splitParent (FS.normalizePath p cd)).1 ['/'])) =
        some (FSNode.dir ch) := by
      rw [← findNode_eq_descend]; exact h
    have hb : (childDelete ch (splitParent (FS.normalizePath p cd)).2).1 = true := by
      rw [childDelete_fst]; exact hhas
    obtain ⟨root2, hr2, hd2⟩ := modifyAt_make root
      (segsOf (FS.normalizePath (splitParent (FS.normalizePath p cd)).1 ['/']))
      (fun parentNode =>
        match parentNode with
        | FSNode.dir ch2 =>
          let r := childDelete ch2 (splitParent (FS.normalizePath p cd)).2
          if r.1 then some (FSNode.dir r.2) else none
        | FSNode.file _ => none)
      (FSNode.dir ch)
      (FSNode.dir (childDelete ch (splitParent (FS.normalizePath p cd)).2).2)
      hd (by
        show (if (childDelete ch (splitParent (FS.normalizePath p cd)).2).1 then
            some (FSNode.dir (childDelete ch (splitParent (FS.normalizePath p cd)).2).2)
            else none) = _
        rw [hb]
        simp)
    have hrem : FS.remove root p cd = some root2 := by
      simp only [FS.remove, if_neg hne]
      exact hr2
    exact ⟨root2, hrem,
      remove_deleted_descend root root2 p cd hwf hne hrem⟩
  · intro q cd2 ext root2 hrem hq
    have hne : FS.normalizePath p cd ≠ ['/'] := by
      intro he
      rw [FS.remove, if_pos he] at hrem
      exact absurd hrem (by simp)
    have hall := remove_deleted_descend root root2 p cd hwf hne hrem ext
    have hqne : FS.normalizePath q cd2 ≠ ['/'] := by
      intro he
      rw [(norm_root_iff q cd2).mp he] at hq
      have : segsOf (FS.normalizePath p cd) = [] := by
        cases hs : segsOf (FS.normalizePath p cd) with
        | nil => rfl
        | cons a b => rw [hs] at hq; simp at hq
      exact hne ((norm_root_iff p cd).mpr this)
    rw [findNode_eq_descend, hq]
    exact hall

theorem C7_remove_spec_witness :
    ∃ root2, FS.remove
        (FSNode.dir [(['d'], FSNode.dir [(['x'], FSNode.file "1")])])
        ['/', 'd'] ['/'] = some root2 ∧
      ∀ ext, descend root2
        (segsOf (FS.normalizePath ['/', 'd'] ['/']) ++ ext) = none := by
  have h := C7_remove_spec
    (FSNode.dir [(['d'], FSNode.dir [(['x'], FSNode.file "1")])])
    ['/', 'd'] ['/'] (by decide)
  exact h.2.2.2.2.1 [(['d'], FSNode.dir [(['x'], FSNode.file "1")])]
    (by decide) rfl rfl

/-- C3 (code bug evidence): after mounting a fresh namespace at `/a` and
writing `/a/f.txt` (which lands in the mounted namespace),
`getFileSystemTree` still returns the root namespace's own tree — the node
at `a` is the plain empty mount-point Directory, not the mounted
namespace's root, which does contain `f.txt`.  `processMountPoints` never
recurses and its prefix test `mount.path.startsWith(path + '/')` can never
hold for the only path it is ever called with, `'/'`. -/
theorem C3_tree_projection_no_splice :
    (MM.mount MM.initial "tmpfs" ['/', 'a']).1 = true ∧
    (MM.writeFile (MM.mount MM.initial "tmpfs" ['/', 'a']).2
        "/a/f.txt".data "x").1 = true ∧
    MM.getFileSystemTree
      (MM.writeFile (MM.mount MM.initial "tmpfs" ['/', 'a']).2
        "/a/f.txt".data "x").2 =
      FSNode.dir [(['a'], FSNode.dir [])] ∧
    FS.readFile (MM.getFS (MM.writeFile (MM.mount MM.initial "tmpfs"
        ['/', 'a']).2 "/a/f.txt".data "x").2.mounts ['/', 'a']).root
      "/f.txt".data ['/'] = some "x" :=
  ⟨rfl, rfl, rfl, rfl⟩

/-- C6: `MountManager.setCurrentDirectory` succeeds exactly when the
context-normalized target resolves, through the owning namespace's
`findNode`, to a Directory; on success it commits the normalized path as
the new `currentDirectory` and on failure the state is unchanged; the
normalized path is absolute (starts with `'/'`) and a fixed point of the
Router normalization in any context; no other namespace-affecting
operation mutates `currentDirectory`, which starts as `'/'`. -/
theorem C6_setCurrentDirectory_spec (mm : MountManager) (p q : List Char)
    (c : String) :
    ((MM.setCurrentDirectory mm p).1 = true ↔
      ∃ ch, FS.findNode (MM.getFS mm.mounts
          (MM.findResponsibleFilesystem mm.mounts
            (MM.normalizePath mm.currentDirectory p)).1).root
        (MM.findResponsibleFilesystem mm.mounts
          (MM.normalizePath mm.currentDirectory p)).2 ['/'] =
        some (FSNode.dir ch)) ∧
    ((MM.setCurrentDirectory mm p).1 = true →
      (MM.setCurrentDirectory mm p).2.currentDirectory =
        MM.normalizePath mm.currentDirectory p) ∧
    ((MM.setCurrentDirectory mm p).1 = false →
      (MM.setCurrentDirectory mm p).2 = mm) ∧
    (∃ t, MM.normalizePath mm.currentDirectory p = '/' :: t) ∧
    (∀ cd2, MM.normalizePath cd2 (MM.normalizePath mm.currentDirectory p) =
      MM.normalizePath mm.currentDirectory p) ∧
    ((MM.mount mm c q).2.currentDirectory = mm.currentDirectory ∧
     (MM.unmount mm q).2.currentDirectory = mm.currentDirectory ∧
     (MM.mkdir mm q).2.currentDirectory = mm.currentDirectory ∧
     (MM.mkdirRecursive mm q).2.currentDirectory = mm.currentDirectory ∧
     (MM.createFile mm q c).2.currentDirectory = mm.currentDirectory ∧
     (MM.writeFile mm q c).2.currentDirectory = mm.currentDirectory ∧
     (MM.remove mm q).2.currentDirectory = mm.currentDirectory) ∧
    MM.initial.currentDirectory = ['/'] := by
  refine ⟨?_, ?_, ?_, mm_norm_head mm.currentDirectory p,
    fun cd2 => mm_norm_of_norm cd2 mm.currentDirectory p,
    ⟨?_, ?_, ?_, ?_, ?_, ?_, ?_⟩, rfl⟩
  · constructor
    · intro h1
      simp only [MM.setCurrentDirectory] at h1
      cases hf : FS.findNode (MM.getFS mm.mounts
          (MM.findResponsibleFilesystem mm.mounts
            (MM.normalizePath mm.currentDirectory p)).1).root
          (MM.findResponsibleFilesystem mm.mounts
            (MM.normalizePath mm.currentDirectory p)).2 ['/'] with
      | none => rw [hf] at h1; exact Bool.noConfusion h1
      | some node =>
        cases node with
        | file s => rw [hf] at h1; exact Bool.noConfusion h1
        | dir ch => exact ⟨ch, rfl⟩
    · rintro ⟨ch, hch⟩
      simp only [MM.setCurrentDirectory, hch]
  · intro h
    simp only [MM.setCurrentDirectory] at h ⊢
    cases hf : FS.findNode (MM.getFS mm.mounts
        (MM.findResponsibleFilesystem mm.mounts
          (MM.normalizePath mm.currentDirectory p)).1).root
        (MM.findResponsibleFilesystem mm.mounts
          (MM.normalizePath mm.currentDirectory p)).2 ['/'] with
    | none => rw [hf] at h; exact Bool.noConfusion h
    | some node =>
      cases node with
      | file s => rw [hf] at h; exact Bool.noConfusion h
      | dir ch => rfl
  · intro h
    simp only [MM.setCurrentDirectory] at h ⊢
    cases hf : FS.findNode (MM.getFS mm.mounts
        (MM.findResponsibleFilesystem mm.mounts
          (MM.normalizePath mm.currentDirectory p)).1).root
        (MM.findResponsibleFilesystem mm.mounts
          (MM.normalizePath mm.currentDirectory p)).2 ['/'] with
    | none => rfl
    | some node =>
      cases node with
      | file s => rfl
      | dir ch => rw [hf] at h; exact Bool.noConfusion h
  · simp only [MM.mount]
    repeat' split
    all_goals rfl
  · simp only [MM.unmount]
    repeat' split
    all_goals rfl
  · simp only [MM.mkdir, MM.forwardOp]
    repeat' split
    all_goals rfl
  · simp only [MM.mkdirRecursive, MM.forwardOp]
    repeat' split
    all_goals rfl
  · simp only [MM.createFile, MM.forwardOp]
    repeat' split
    all_goals rfl
  · simp only [MM.writeFile, MM.forwardOp]
    repeat' split
    all_goals rfl
  · simp only [MM.remove, MM.forwardOp]
    repeat' split
    all_goals rfl

theorem descend_nil_dir (xs : List (List Char)) (h : xs ≠ []) :
    descend (FSNode.dir []) xs = none := by
  cases xs with
  | nil => exact absurd rfl h
  | cons y ys => simp [descend, childGet]

/-- One step of the `mkdirRecursive` walk: with `currentPath` the canonical
path of the already-processed segments `ds`, the extended current path is
canonical for `ds ++ [seg]`, `findNode` on it is the segment descent, and
`mkdir` on it splits into parent `ds` and name `seg`. -/
theorem mkdirRec_step (root : FSNode) (ds : List (List Char))
    (seg : List Char) (currentPath : List Char)
    (hcp : ∀ x, currentPath ++ '/' :: x = '/' :: joinSlash (ds ++ [x]))
    (hgood : ∀ x ∈ ds ++ [seg], goodSeg x) :
    FS.findNode root (currentPath ++ '/' :: seg) ['/'] =
      descend root (ds ++ [seg]) ∧
    FS.normalizePath (currentPath ++ '/' :: seg) ['/'] =
      '/' :: joinSlash (ds ++ [seg]) ∧
    splitParent (FS.normalizePath (currentPath ++ '/' :: seg) ['/']) =
      ('/' :: joinSlash ds, seg) ∧
    segsOf (FS.normalizePath ('/' :: joinSlash ds) ['/']) = ds := by
  have hnorm : FS.normalizePath (currentPath ++ '/' :: seg) ['/'] =
      '/' :: joinSlash (ds ++ [seg]) := by
    rw [hcp seg]
    exact normalizePath_canon ['/'] (ds ++ [seg]) hgood
  have hgds : ∀ x ∈ ds, goodSeg x := fun x hx => hgood x (by simp [hx])
  refine ⟨?_, hnorm, ?_, segsOf_canon ds hgds⟩
  · rw [findNode_eq_descend, hnorm,
      segsOf_slash_join (ds ++ [seg]) (fun x hx => goodSeg_pair x (hgood x hx))]
  · rw [hnorm]
    exact splitParent_canon ds seg hgood

theorem mkdirRecGo_spec (rest : List (List Char)) :
    ∀ (ds : List (List Char)) (root : FSNode) (currentPath : List Char)
      (ch0 : List (List Char × FSNode)),
      (∀ x ∈ ds ++ rest, goodSeg x) →
      (∀ x, currentPath ++ '/' :: x = '/' :: joinSlash (ds ++ [x])) →
      descend root ds = some (FSNode.dir ch0) →
      ((∀ k c2, k ≤ rest.length →
          descend root (ds ++ rest.take k) ≠ some (FSNode.file c2)) →
        ∃ root2, FS.mkdirRecursiveGo root currentPath rest = some root2 ∧
          ∀ k, k ≤ rest.length →
            ∃ ch, descend root2 (ds ++ rest.take k) = some (FSNode.dir ch)) ∧
      ((∀ k, k ≤ rest.length →
          ∃ ch, descend root (ds ++ rest.take k) = some (FSNode.dir ch)) →
        FS.mkdirRecursiveGo root currentPath rest = some root) ∧
      ((∃ k c2, k ≤ rest.length ∧
          descend root (ds ++ rest.take k) = some (FSNode.file c2)) →
        FS.mkdirRecursiveGo root currentPath rest = none) := by
  induction rest with
  | nil =>
    intro ds root currentPath ch0 hgood hcp hch0
    refine ⟨?_, ?_, ?_⟩
    · intro _
      refine ⟨root, rfl, ?_⟩
      intro k hk
      have hk0 : k = 0 := by simpa using hk
      subst hk0
      exact ⟨ch0, by simpa using hch0⟩
    · intro _; rfl
    · rintro ⟨k, c2, hk, hdesc⟩
      have hk0 : k = 0 := by simpa using hk
      subst hk0
      simp only [List.take_nil, List.append_nil] at hdesc
      rw [hch0] at hdesc
      exact FSNode.noConfusion (Option.some.inj hdesc)
  | cons seg rest2 ih =>
    intro ds root currentPath ch0 hgood hcp hch0
    have hgood1 : ∀ x ∈ ds ++ [seg], goodSeg x := by
      intro x hx
      apply hgood
      rcases List.mem_append.mp hx with h | h
      · exact List.mem_append.mpr (Or.inl h)
      · simp at h
        subst h
        simp
    obtain ⟨hfind, hnorm, hsplit, hpsegs⟩ :=
      mkdirRec_step root ds seg currentPath hcp hgood1
    have hne2 : FS.normalizePath (currentPath ++ '/' :: seg) ['/'] ≠ ['/'] := by
      rw [hnorm]
      intro he
      exact joinSlash_ne_nil (ds ++ [seg]) hgood1 (by simp) (by simpa using he)
    have hcp2 : ∀ x, (currentPath ++ '/' :: seg) ++ '/' :: x =
        '/' :: joinSlash ((ds ++ [seg]) ++ [x]) := by
      intro x
      rw [joinSlash_append_single (ds ++ [seg]) x (by simp), hcp seg]
      simp
    have hgood2 : ∀ x ∈ (ds ++ [seg]) ++ rest2, goodSeg x := by
      intro x hx
      apply hgood
      rcases List.mem_append.mp hx with h | h
      · rcases List.mem_append.mp h with h2 | h2
        · exact List.mem_append.mpr (Or.inl h2)
        · simp at h2
          subst h2
          simp
      · simp [h]
    cases hF : descend root (ds ++ [seg]) with
    | some node =>
      cases node with
      | file c2 =>
        refine ⟨?_, ?_, ?_⟩
        · intro hnof
          have h1 := hnof 1 c2 (by simp)
          rw [show (seg :: rest2).take 1 = [seg] from rfl] at h1
          exact absurd hF h1
        · intro hall
          obtain ⟨ch, hch⟩ := hall 1 (by simp)
          rw [show (seg :: rest2).take 1 = [seg] from rfl, hF] at hch
          exact FSNode.noConfusion (Option.some.inj hch)
        · intro _
          simp only [FS.mkdirRecursiveGo, hfind, hF]
      | dir ch =>
        have hrec := ih (ds ++ [seg]) root (currentPath ++ '/' :: seg) ch
          hgood2 hcp2 hF
        refine ⟨?_, ?_, ?_⟩
        · intro hnof
          obtain ⟨root2, hr2, hprop⟩ := hrec.1 (by
            intro k c2 hk
            have h1 := hnof (k + 1) c2 (by simpa using hk)
            rw [List.take_succ_cons, List.append_cons ds seg
              (rest2.take k)] at h1
            exact h1)
          refine ⟨root2, ?_, ?_⟩
          · simp only [FS.mkdirRecursiveGo, hfind, hF]
            exact hr2
          · intro k hk
            cases k with
            | zero =>
              obtain ⟨chX, hchX⟩ := hprop 0 (by simp)
              simp only [List.take_zero, List.append_nil] at hchX
              have h2 := descend_take_dir (ds ++ [seg]) root2 _ hchX
                ds.length (by simp)
              rw [List.take_left] at h2
              obtain ⟨chZ, hchZ⟩ := h2
              exact ⟨chZ, by rw [List.take_zero, List.append_nil]; exact hchZ⟩
            | succ j =>
              have h2 := hprop j (by simpa using hk)
              rw [List.take_succ_cons, List.append_cons ds seg (rest2.take j)]
              exact h2
        · intro hall
          have h1 : FS.mkdirRecursiveGo root (currentPath ++ '/' :: seg)
              rest2 = some root := hrec.2.1 (by
            intro k hk
            have h2 := hall (k + 1) (by simpa using hk)
            rw [List.take_succ_cons, List.append_cons ds seg
              (rest2.take k)] at h2
            exact h2)
          simp only [FS.mkdirRecursiveGo, hfind, hF]
          exact h1
        · rintro ⟨k, c2, hk, hdesc⟩
          cases k with
          | zero =>
            simp only [List.take_zero, List.append_nil] at hdesc
            rw [hch0] at hdesc
            exact FSNode.noConfusion (Option.some.inj hdesc)
          | succ j =>
            have h1 : FS.mkdirRecursiveGo root (currentPath ++ '/' :: seg)
                rest2 = none := hrec.2.2 ⟨j, c2, by simpa using hk, by
              rw [List.take_succ_cons, List.append_cons ds seg
                (rest2.take j)] at hdesc
              exact hdesc⟩
            simp only [FS.mkdirRecursiveGo, hfind, hF]
            exact h1
    | none =>
      have hget : childGet ch0 seg = none := by
        rw [← descend_snoc root ds seg ch0 hch0]
        exact hF
      obtain ⟨root3, hr3, hd3⟩ := modifyAt_make root
        (segsOf (FS.normalizePath (splitParent (FS.normalizePath
          (currentPath ++ '/' :: seg) ['/'])).1 ['/']))
        (fun parentNode =>
          match parentNode with
          | FSNode.dir ch2 =>
            if childHas ch2 (splitParent (FS.normalizePath
                (currentPath ++ '/' :: seg) ['/'])).2 then none
            else some (FSNode.dir (childSet ch2 (splitParent (FS.normalizePath
                (currentPath ++ '/' :: seg) ['/'])).2 (FSNode.dir [])))
          | FSNode.file _ => none)
        (FSNode.dir ch0)
        (FSNode.dir (childSet ch0 (splitParent (FS.normalizePath
            (currentPath ++ '/' :: seg) ['/'])).2 (FSNode.dir [])))
        (by rw [hsplit]; simpa [hpsegs] using hch0)
        (by rw [hsplit]; simp [childHas, hget])
      have hmkdir : FS.mkdir root (currentPath ++ '/' :: seg) ['/'] =
          some root3 := by
        simp only [FS.mkdir, if_neg hne2]
        exact hr3
      have hd3b : descend root3 ds =
          some (FSNode.dir (childSet ch0 seg (FSNode.dir []))) := by
        rw [hsplit] at hd3
        simpa [hpsegs] using hd3
      have hstep : descend root3 (ds ++ [seg]) = some (FSNode.dir []) := by
        rw [descend_snoc root3 ds seg _ hd3b, childGet_set_self]
      have hrec := ih (ds ++ [seg]) root3 (currentPath ++ '/' :: seg) []
        hgood2 hcp2 hstep
      refine ⟨?_, ?_, ?_⟩
      · intro _
        obtain ⟨root2, hr2, hprop⟩ := hrec.1 (by
          intro k c2 hk
          cases k with
          | zero =>
            simp only [List.take_zero, List.append_nil]
            rw [hstep]
            exact fun hcon => FSNode.noConfusion (Option.some.inj hcon)
          | succ j =>
            rw [descend_append, hstep]
            show descend (FSNode.dir []) (rest2.take (j + 1)) ≠
              some (FSNode.file c2)
            rw [descend_nil_dir]
            · exact fun hcon => Option.noConfusion hcon
            · cases rest2 with
              | nil => simp at hk
              | cons y ys => simp [List.take_succ_cons])
        refine ⟨root2, ?_, ?_⟩
        · simp only [FS.mkdirRecursiveGo, hfind, hF, hmkdir]
          exact hr2
        · intro k hk
          cases k with
          | zero =>
            obtain ⟨chX, hchX⟩ := hprop 0 (by simp)
            simp only [List.take_zero, List.append_nil] at hchX
            have h2 := descend_take_dir (ds ++ [seg]) root2 _ hchX
              ds.length (by simp)
            rw [List.take_left] at h2
            obtain ⟨chZ, hchZ⟩ := h2
            exact ⟨chZ, by rw [List.take_zero, List.append_nil]; exact hchZ⟩
          | succ j =>
            have h2 := hprop j (by simpa using hk)
            rw [List.take_succ_cons, List.append_cons ds seg (rest2.take j)]
            exact h2
      · intro hall
        obtain ⟨ch, hch⟩ := hall 1 (by simp)
        rw [show (seg :: rest2).take 1 = [seg] from rfl, hF] at hch
        exact Option.noConfusion hch
      · rintro ⟨k, c2, hk, hdesc⟩
        cases k with
        | zero =>
          simp only [List.take_zero, List.append_nil] at hdesc
          rw [hch0] at hdesc
          exact FSNode.noConfusion (Option.some.inj hdesc)
        | succ j =>
          rw [List.take_succ_cons, List.append_cons ds seg
            (rest2.take j)] at hdesc
          rw [descend_append_none root (ds ++ [seg]) (rest2.take j) hF]
            at hdesc
          exact Option.noConfusion hdesc

theorem mkdirRecGo_file_root (c : String) (seg : List Char)
    (rest : List (List Char)) (hg : goodSeg seg) :
    FS.mkdirRecursiveGo (FSNode.file c) [] (seg :: rest) = none := by
  have hcp : ∀ x, ([] : List Char) ++ '/' :: x =
      '/' :: joinSlash ([] ++ [x]) := by
    intro x
    simp [joinSlash]
  have hgood1 : ∀ x ∈ ([] : List (List Char)) ++ [seg], goodSeg x := by
    intro x hx
    simp at hx
    subst hx
    exact hg
  obtain ⟨hfind, hnorm, hsplit, hpsegs⟩ :=
    mkdirRec_step (FSNode.file c) [] seg [] hcp hgood1
  have hne2 : FS.normalizePath (([] : List Char) ++ '/' :: seg) ['/'] ≠
      ['/'] := by
    rw [hnorm]
    intro he
    exact joinSlash_ne_nil ([] ++ [seg]) hgood1 (by simp) (by simpa using he)
  have hF : descend (FSNode.file c) ([] ++ [seg]) = none := by
    simp [descend]
  have hmk : FS.mkdir (FSNode.file c) (([] : List Char) ++ '/' :: seg) ['/'] =
      none := by
    simp only [FS.mkdir, if_neg hne2]
    apply modifyAt_none_of_f_none _ _ _ (FSNode.file c)
    · rw [hsplit]
      simpa [hpsegs] using descend_nil (FSNode.file c)
    · rfl
  simp only [FS.mkdirRecursiveGo, hfind, hF, hmk]

/-- C5 amended: for every path that does not normalize to root, if every
prefix of its segment chain (the root node included) resolves to a
Directory then `FileSystem.mkdirRecursive` succeeds with the tree unchanged
(no-op success); if some prefix resolves to a File it fails; and if no
prefix resolves to a File it succeeds, after which every prefix (the full
path included) resolves to a Directory — each missing prefix was created.
A path normalizing to root, although fully existing, always fails; that is
the correction the counterexample forces. -/
theorem C5_mkdirRecursive_spec (root : FSNode) (p cd : List Char) :
    (FS.normalizePath p cd = ['/'] → FS.mkdirRecursive root p cd = none) ∧
    (FS.normalizePath p cd ≠ ['/'] →
      ((∀ k, k ≤ (segsOf (FS.normalizePath p cd)).length →
          ∃ ch, descend root ((segsOf (FS.normalizePath p cd)).take k) =
            some (FSNode.dir ch)) →
        FS.mkdirRecursive root p cd = some root) ∧
      ((∃ k c2, k ≤ (segsOf (FS.normalizePath p cd)).length ∧
          descend root ((segsOf (FS.normalizePath p cd)).take k) =
            some (FSNode.file c2)) →
        FS.mkdirRecursive root p cd = none) ∧
      ((∀ k c2, k ≤ (segsOf (FS.normalizePath p cd)).length →
          descend root ((segsOf (FS.normalizePath p cd)).take k) ≠
            some (FSNode.file c2)) →
        ∃ root2, FS.mkdirRecursive root p cd = some root2 ∧
          ∀ k, k ≤ (segsOf (FS.normalizePath p cd)).length →
            ∃ ch, descend root2 ((segsOf (FS.normalizePath p cd)).take k) =
              some (FSNode.dir ch))) := by
  constructor
  · intro h
    show (if FS.normalizePath p cd = ['/'] then none
      else FS.mkdirRecursiveGo root [] (segsOf (FS.normalizePath p cd))) = none
    rw [if_pos h]
  · intro hne
    obtain ⟨tt, he, hsegs, hgood⟩ := norm_shape p cd
    have htne : tt ≠ [] := by
      intro h0
      exact hne ((norm_root_iff p cd).mpr (by rw [hsegs, h0]))
    have hmr : FS.mkdirRecursive root p cd =
        FS.mkdirRecursiveGo root [] tt := by
      show (if FS.normalizePath p cd = ['/'] then none
        else FS.mkdirRecursiveGo root [] (segsOf (FS.normalizePath p cd))) = _
      rw [if_neg hne, hsegs]
    rw [hmr, hsegs]
    cases root with
    | dir ch0 =>
      have hgo := mkdirRecGo_spec tt [] (FSNode.dir ch0) [] ch0
        (by intro x hx; exact hgood x (by simpa using hx))
        (by intro x; simp [joinSlash]) rfl
      simp only [List.nil_append] at hgo
      exact ⟨hgo.2.1, hgo.2.2, hgo.1⟩
    | file c0 =>
      refine ⟨?_, ?_, ?_⟩
      · intro hall
        obtain ⟨ch, hch⟩ := hall 0 (Nat.zero_le _)
        rw [List.take_zero, descend_nil] at hch
        exact FSNode.noConfusion (Option.some.inj hch)
      · intro _
        cases tt with
        | nil => exact absurd rfl htne
        | cons seg rest =>
          exact mkdirRecGo_file_root c0 seg rest (hgood seg (by simp))
      · intro hnof
        have h0 := hnof 0 c0 (Nat.zero_le _)
        rw [List.take_zero, descend_nil] at h0
        exact absurd rfl h0

/-- C5 counterexample: the path `/` normalizes to root, its (empty) chain
of prefixes fully exists as a Directory — the root itself — yet
`mkdirRecursive("/")` returns failure rather than the claimed no-op
success. -/
theorem C5_root_path_counterexample :
    FS.normalizePath ['/'] ['/'] = ['/'] ∧
    descend (FSNode.dir []) (segsOf (FS.normalizePath ['/'] ['/'])) =
      some (FSNode.dir []) ∧
    FS.mkdirRecursive (FSNode.dir []) ['/'] ['/'] = none :=
  ⟨rfl, rfl, rfl⟩

/-! ### Longest-prefix mount routing -/

theorem mem_insertByLen (m x : MountPoint) (l : List MountPoint) :
    x ∈ MM.insertByLen m l ↔ x = m ∨ x ∈ l := by
  induction l with
  | nil => simp [MM.insertByLen]
  | cons y ys ih =>
    by_cases h : y.path.length < m.path.length
    · simp [MM.insertByLen, h]
    · simp only [MM.insertByLen, if_neg h, List.mem_cons, ih]
      tauto

theorem mem_sortFold (l : List MountPoint) :
    ∀ (acc : List MountPoint) (x : MountPoint),
      x ∈ l.foldl (fun acc2 m => MM.insertByLen m acc2) acc ↔
        x ∈ acc ∨ x ∈ l := by
  induction l with
  | nil => intro acc x; simp
  | cons m ms ih =>
    intro acc x
    rw [List.foldl_cons, ih (MM.insertByLen m acc) x, mem_insertByLen]
    simp only [List.mem_cons]
    tauto

theorem mem_sortMountsDesc (l : List MountPoint) (x : MountPoint) :
    x ∈ MM.sortMountsDesc l ↔ x ∈ l := by
  rw [MM.sortMountsDesc, mem_sortFold]
  simp

theorem pairwise_insertByLen (m : MountPoint) (l : List MountPoint)
    (h : List.Pairwise (fun a b => b.path.length ≤ a.path.length) l) :
    List.Pairwise (fun a b => b.path.length ≤ a.path.length)
      (MM.insertByLen m l) := by
  induction l with
  | nil => simp [MM.insertByLen]
  | cons y ys ih =>
    rcases List.pairwise_cons.mp h with ⟨hy, hys⟩
    by_cases hlt : y.path.length < m.path.length
    · rw [MM.insertByLen, if_pos hlt]
      refine List.pairwise_cons.mpr ⟨?_, h⟩
      intro z hz
      rcases List.mem_cons.mp hz with h2 | h2
      · subst h2; omega
      · have := hy z h2; omega
    · rw [MM.insertByLen, if_neg hlt]
      refine List.pairwise_cons.mpr ⟨?_, ih hys⟩
      intro z hz
      rcases (mem_insertByLen m z ys).mp hz with h2 | h2
      · subst h2; omega
      · exact hy z h2

theorem pairwise_sortFold (l : List MountPoint) :
    ∀ acc, List.Pairwise (fun a b => b.path.length ≤ a.path.length) acc →
      List.Pairwise (fun a b => b.path.length ≤ a.path.length)
        (l.foldl (fun acc2 m => MM.insertByLen m acc2) acc) := by
  induction l with
  | nil => intro acc h; simpa using h
  | cons m ms ih =>
    intro acc h
    rw [List.foldl_cons]
    exact ih (MM.insertByLen m acc) (pairwise_insertByLen m acc h)

theorem pairwise_sortMountsDesc (l : List MountPoint) :
    List.Pairwise (fun a b => b.path.length ≤ a.path.length)
      (MM.sortMountsDesc l) :=
  pairwise_sortFold l [] (by simp)

theorem startsWithL_take (p : List Char) :
    ∀ s, startsWithL s p = true → s.take p.length = p := by
  induction p with
  | nil => intro s _; simp
  | cons c ps ih =>
    intro s h
    cases s with
    | nil => simp [startsWithL] at h
    | cons d t =>
      by_cases hdc : d = c
      · subst hdc
        rw [startsWithL, if_pos rfl] at h
        simp only [List.length_cons, List.take_succ_cons]
        rw [ih t h]
      · rw [startsWithL, if_neg hdc] at h
        exact Bool.noConfusion h

theorem coversPath_take (path q : List Char)
    (h : MM.coversPath path q = true) : path.take q.length = q := by
  rw [MM.coversPath] at h
  by_cases heq : path = q
  · subst heq
    simp
  · rw [if_neg heq] at h
    have h1 := startsWithL_take (q ++ ['/']) path h
    have h2 : path.take q.length =
        (path.take (q ++ ['/']).length).take q.length := by
      rw [List.take_take]
      congr 1
      simp
    rw [h2, h1]
    simp

theorem findRespGo_max (path : List Char) (mp : MountPoint) :
    ∀ l, List.Pairwise (fun a b => b.path.length ≤ a.path.length) l →
      mp ∈ l → MM.coversPath path mp.path = true →
      (∀ m2 ∈ l, MM.coversPath path m2.path = true →
        m2.path.length ≤ mp.path.length) →
      MM.findRespGo l path = some (mp.path,
        if path = mp.path then ['/'] else path.drop mp.path.length) := by
  intro l
  induction l with
  | nil => intro _ hmem; simp at hmem
  | cons m ms ih =>
    intro hpw hmem hcov hmax
    by_cases hc : MM.coversPath path m.path = true
    · have hle1 : m.path.length ≤ mp.path.length := hmax m (by simp) hc
      have hle2 : mp.path.length ≤ m.path.length := by
        rcases List.mem_cons.mp hmem with h | h
        · rw [h]
        · exact (List.pairwise_cons.mp hpw).1 mp h
      have hlen : m.path.length = mp.path.length := le_antisymm hle1 hle2
      have heq : m.path = mp.path := by
        have h1 := coversPath_take path m.path hc
        have h2 := coversPath_take path mp.path hcov
        rw [← h1, ← h2, hlen]
      rw [MM.findRespGo, if_pos hc, heq]
    · have hmem2 : mp ∈ ms := by
        rcases List.mem_cons.mp hmem with h | h
        · exact absurd (h ▸ hcov) hc
        · exact h
      rw [MM.findRespGo, if_neg hc]
      exact ih (List.pairwise_cons.mp hpw).2 hmem2 hcov
        (fun m2 hm2 => hmax m2 (by simp [hm2]))

/-- C2: for every absolute path covered by at least one mount entry
(exact match or prefix followed by `/`), the Router resolves the owning
namespace to the covering entry with the longest mount path, and the
forwarded relative path is the input with that prefix stripped (an empty
strip maps to `/`).  The concrete mount-precedence scenario of the claim —
mounts at `/a` and `/a/b`, a write to `/a/b/c.txt` landing in the `/a/b`
namespace at `/c.txt` and absent from `/a`'s namespace — closes the
statement. -/
theorem C2_longest_match_spec (mounts : List MountPoint) (path : List Char)
    (mp : MountPoint) (h1 : mp ∈ mounts)
    (h2 : MM.coversPath path mp.path = true)
    (h3 : ∀ m2 ∈ mounts, MM.coversPath path m2.path = true →
      m2.path.length ≤ mp.path.length) :
    MM.findResponsibleFilesystem mounts path =
      (mp.path, if path = mp.path then ['/']
        else path.drop mp.path.length) ∧
    (MM.writeFile (MM.mount (MM.mount MM.initial "ext4" "/a".data).2
        "ext4" "/a/b".data).2 "/a/b/c.txt".data "x").1 = true ∧
    FS.readFile (MM.getFS (MM.writeFile (MM.mount (MM.mount MM.initial "ext4"
        "/a".data).2 "ext4" "/a/b".data).2 "/a/b/c.txt".data "x").2.mounts
      "/a/b".data).root "/c.txt".data ['/'] = some "x" ∧
    FS.findNode (MM.getFS (MM.writeFile (MM.mount (MM.mount MM.initial "ext4"
        "/a".data).2 "ext4" "/a/b".data).2 "/a/b/c.txt".data "x").2.mounts
      "/a".data).root "/c.txt".data ['/'] = none ∧
    FS.findNode (MM.getFS (MM.writeFile (MM.mount (MM.mount MM.initial "ext4"
        "/a".data).2 "ext4" "/a/b".data).2 "/a/b/c.txt".data "x").2.mounts
      "/a".data).root "/b/c.txt".data ['/'] = none := by
  refine ⟨?_, rfl, rfl, rfl, rfl⟩
  have hpw := pairwise_sortMountsDesc mounts
  have hmem : mp ∈ MM.sortMountsDesc mounts :=
    (mem_sortMountsDesc mounts mp).mpr h1
  have hmax : ∀ m2 ∈ MM.sortMountsDesc mounts,
      MM.coversPath path m2.path = true →
      m2.path.length ≤ mp.path.length :=
    fun m2 hm2 => h3 m2 ((mem_sortMountsDesc mounts m2).mp hm2)
  simp only [MM.findResponsibleFilesystem,
    findRespGo_max path mp (MM.sortMountsDesc mounts) hpw hmem h2 hmax]

theorem C2_longest_match_spec_witness :
    MM.findResponsibleFilesystem
      [⟨['/'], newFileSystem "root" "ext4"⟩,
       ⟨"/a".data, newFileSystem "m1" "ext4"⟩,
       ⟨"/a/b".data, newFileSystem "m2" "ext4"⟩] "/a/b/c.txt".data =
      ("/a/b".data, "/c.txt".data) := by
  have h := (C2_longest_match_spec
    [⟨['/'], newFileSystem "root" "ext4"⟩,
     ⟨"/a".data, newFileSystem "m1" "ext4"⟩,
     ⟨"/a/b".data, newFileSystem "m2" "ext4"⟩] "/a/b/c.txt".data
    ⟨"/a/b".data, newFileSystem "m2" "ext4"⟩
    (List.mem_cons_of_mem _ (List.mem_cons_of_mem _ (List.mem_cons_self _ _)))
    (by decide)
    (by
      intro m2 hm2 _
      simp at hm2
      rcases hm2 with h | h | h <;> subst h <;> decide)).1
  rw [h]
  decide

/-! ### Mount / unmount frame reasoning -/

theorem any_path_false (l : List MountPoint) (np : List Char)
    (h : l.any (fun e => e.path = np) = false) : ∀ e ∈ l, e.path ≠ np := by
  intro e he hcon
  have h2 : l.any (fun e => e.path = np) = true :=
    List.any_eq_true.mpr ⟨e, he, by simp [hcon]⟩
  rw [h] at h2
  exact Bool.noConfusion h2

theorem setFS_paths (l : List MountPoint) (mp : List Char) (fs : FileSystem) :
    (MM.setFS l mp fs).map (fun e => e.path) = l.map (fun e => e.path) := by
  induction l with
  | nil => rfl
  | cons m ms ih =>
    by_cases hm : m.path = mp
    · rw [MM.setFS, if_pos hm]
      simp
    · rw [MM.setFS, if_neg hm]
      simp [ih]

theorem mem_setFS_path (l : List MountPoint) (mp : List Char)
    (fs : FileSystem) (e : MountPoint) (he : e ∈ MM.setFS l mp fs) :
    e.path ∈ l.map (fun e2 => e2.path) := by
  have h1 : e.path ∈ (MM.setFS l mp fs).map (fun e2 => e2.path) :=
    List.mem_map_of_mem _ he
  rwa [setFS_paths] at h1

theorem removeFirst_append (l : List MountPoint) (x : MountPoint)
    (h : ∀ e ∈ l, e.path ≠ x.path) :
    MM.removeFirstMount (l ++ [x]) x.path = some l := by
  induction l with
  | nil => simp [MM.removeFirstMount]
  | cons m ms ih =>
    have hm : m.path ≠ x.path := h m (by simp)
    rw [List.cons_append, MM.removeFirstMount, if_neg hm,
      ih (fun e he => h e (by simp [he]))]

theorem getFS_append_ne (l : List MountPoint) (x : MountPoint)
    (mp : List Char) (h : x.path ≠ mp) :
    MM.getFS (l ++ [x]) mp = MM.getFS l mp := by
  induction l with
  | nil => simp [MM.getFS, h]
  | cons m ms ih =>
    by_cases hm : m.path = mp
    · simp [MM.getFS, hm]
    · simp [MM.getFS, hm, ih]

theorem getFS_setFS (l : List MountPoint) (mp : List Char) (fs : FileSystem)
    (h : ∃ e ∈ l, e.path = mp) :
    MM.getFS (MM.setFS l mp fs) mp = fs := by
  induction l with
  | nil => simp at h
  | cons m ms ih =>
    by_cases hm : m.path = mp
    · rw [MM.setFS, if_pos hm]
      simp [MM.getFS, hm]
    · rw [MM.setFS, if_neg hm, MM.getFS, if_neg hm]
      apply ih
      obtain ⟨e, he, hpath⟩ := h
      rcases List.mem_cons.mp he with h2 | h2
      · exact absurd (h2 ▸ hpath) hm
      · exact ⟨e, h2, hpath⟩

theorem findRespGo_path_mem (l : List MountPoint) (path : List Char)
    (r : List Char × List Char) (h : MM.findRespGo l path = some r) :
    ∃ e ∈ l, e.path = r.1 := by
  induction l with
  | nil => simp [MM.findRespGo] at h
  | cons m ms ih =>
    rw [MM.findRespGo] at h
    by_cases hc : MM.coversPath path m.path = true
    · rw [if_pos hc] at h
      have h2 := Option.some.inj h
      exact ⟨m, by simp, by rw [← h2]⟩
    · rw [if_neg hc] at h
      obtain ⟨e, he, hp⟩ := ih h
      exact ⟨e, by simp [he], hp⟩

theorem findResp_path_cases (mounts : List MountPoint) (path : List Char) :
    (MM.findResponsibleFilesystem mounts path).1 = ['/'] ∨
    ∃ e ∈ mounts, e.path = (MM.findResponsibleFilesystem mounts path).1 := by
  rw [MM.findResponsibleFilesystem]
  cases hg : MM.findRespGo (MM.sortMountsDesc mounts) path with
  | none => left; rfl
  | some r =>
    right
    obtain ⟨e, he, hpath⟩ := findRespGo_path_mem _ _ _ hg
    exact ⟨e, (mem_sortMountsDesc mounts e).mp he, hpath⟩

theorem mkdirRecursive_target_dir (root root2 : FSNode) (q cd : List Char)
    (h : FS.mkdirRecursive root q cd = some root2) :
    ∃ ch, FS.findNode root2 q cd = some (FSNode.dir ch) := by
  have hne : FS.normalizePath q cd ≠ ['/'] := by
    intro he
    have h0 : FS.mkdirRecursive root q cd = none := by
      show (if FS.normalizePath q cd = ['/'] then none
        else FS.mkdirRecursiveGo root [] (segsOf (FS.normalizePath q cd))) =
        none
      rw [if_pos he]
    rw [h0] at h
    exact Option.noConfusion h
  obtain ⟨tt, he2, hsegs, hgood⟩ := norm_shape q cd
  have htne : tt ≠ [] := fun h0 =>
    hne ((norm_root_iff q cd).mpr (by rw [hsegs, h0]))
  have hmr : FS.mkdirRecursive root q cd = FS.mkdirRecursiveGo root [] tt := by
    show (if FS.normalizePath q cd = ['/'] then none
      else FS.mkdirRecursiveGo root [] (segsOf (FS.normalizePath q cd))) = _
    rw [if_neg hne, hsegs]
  rw [hmr] at h
  rw [findNode_eq_descend, hsegs]
  cases root with
  | file c0 =>
    exfalso
    cases tt with
    | nil => exact htne rfl
    | cons seg rest =>
      rw [mkdirRecGo_file_root c0 seg rest (hgood seg (by simp))] at h
      exact Option.noConfusion h
  | dir ch0 =>
    have hgo := mkdirRecGo_spec tt [] (FSNode.dir ch0) [] ch0
      (by intro x hx; exact hgood x (by simpa using hx))
      (by intro x; simp [joinSlash]) rfl
    simp only [List.nil_append] at hgo
    by_cases hex : ∃ k c2, k ≤ tt.length ∧
        descend (FSNode.dir ch0) (tt.take k) = some (FSNode.file c2)
    · rw [hgo.2.2 hex] at h
      exact Option.noConfusion h
    · push_neg at hex
      obtain ⟨root3, hr3, hprop⟩ := hgo.1 (fun k c2 hk => hex k c2 hk)
      rw [hr3] at h
      obtain ⟨ch, hch⟩ := hprop tt.length le_rfl
      rw [List.take_length] at hch
      exact ⟨ch, (Option.some.inj h) ▸ hch⟩

/-- C10: when `mount` succeeds after having created the mount-point
Directory in the parent namespace (the target did not resolve before), a
subsequent `unmount` of the same path removes only the appended mount
entry — the remaining entries are exactly the pre-unmount entries — while
the parent namespace, reached through the same routing, still resolves the
mount point's relative path to a Directory; `currentDirectory` is
untouched. -/
theorem C10_unmount_frame_spec (mm : MountManager) (kind : String)
    (m : List Char)
    (hroot : ∃ e ∈ mm.mounts, e.path = ['/'])
    (hnew : FS.findNode (MM.getFS mm.mounts ((MM.findResponsibleFilesystem mm.mounts (MM.normalizePath mm.currentDirectory m)).1)).root
      ((MM.findResponsibleFilesystem mm.mounts (MM.normalizePath mm.currentDirectory m)).2) ['/'] = none)
    (hsucc : (MM.mount mm kind m).1 = true) :
    (MM.unmount (MM.mount mm kind m).2 m).1 = true ∧
    (∃ pre nf, (MM.mount mm kind m).2.mounts =
        pre ++ [{ path := MM.normalizePath mm.currentDirectory m, filesystem := nf }] ∧
      (MM.unmount (MM.mount mm kind m).2 m).2.mounts = pre) ∧
    MM.getFS (MM.unmount (MM.mount mm kind m).2 m).2.mounts ((MM.findResponsibleFilesystem mm.mounts (MM.normalizePath mm.currentDirectory m)).1) =
      MM.getFS (MM.mount mm kind m).2.mounts ((MM.findResponsibleFilesystem mm.mounts (MM.normalizePath mm.currentDirectory m)).1) ∧
    (∃ ch, FS.findNode (MM.getFS (MM.unmount (MM.mount mm kind m).2 m).2.mounts ((MM.findResponsibleFilesystem mm.mounts (MM.normalizePath mm.currentDirectory m)).1)).root
      ((MM.findResponsibleFilesystem mm.mounts (MM.normalizePath mm.currentDirectory m)).2) ['/'] = some (FSNode.dir ch)) ∧
    (MM.unmount (MM.mount mm kind m).2 m).2.currentDirectory = mm.currentDirectory := by
  cases hany : mm.mounts.any (fun e => e.path = MM.normalizePath mm.currentDirectory m) with
  | true =>
    exfalso
    simp [MM.mount, hany] at hsucc
  | false =>
    have hpaths := any_path_false mm.mounts (MM.normalizePath mm.currentDirectory m) hany
    have hnproot : MM.normalizePath mm.currentDirectory m ≠ ['/'] := by
      intro he
      obtain ⟨e, hemem, hepath⟩ := hroot
      exact hpaths e hemem (by rw [hepath, he])
    cases hmr : FS.mkdirRecursive (MM.getFS mm.mounts ((MM.findResponsibleFilesystem mm.mounts (MM.normalizePath mm.currentDirectory m)).1)).root ((MM.findResponsibleFilesystem mm.mounts (MM.normalizePath mm.currentDirectory m)).2) ['/'] with
    | none =>
      exfalso
      simp [MM.mount, hany, hnew, hmr] at hsucc
    | some root3 =>
      have hm2 : (MM.mount mm kind m).2 = { mm with mounts := MM.setFS mm.mounts ((MM.findResponsibleFilesystem mm.mounts (MM.normalizePath mm.currentDirectory m)).1) ({ MM.getFS mm.mounts ((MM.findResponsibleFilesystem mm.mounts (MM.normalizePath mm.currentDirectory m)).1) with root := root3 }) ++ [{ path := MM.normalizePath mm.currentDirectory m, filesystem := newFileSystem ("mount_" ++ toString mm.mounts.length) kind }] } := by
        simp [MM.mount, hany, hnew, hmr]
      have hr1 : ∃ e ∈ mm.mounts, e.path = (MM.findResponsibleFilesystem mm.mounts (MM.normalizePath mm.currentDirectory m)).1 := by
        rcases findResp_path_cases mm.mounts (MM.normalizePath mm.currentDirectory m) with hc | hc
        · rw [hc]
          exact hroot
        · exact hc
      have hr1ne : (MM.findResponsibleFilesystem mm.mounts (MM.normalizePath mm.currentDirectory m)).1 ≠ MM.normalizePath mm.currentDirectory m := by
        obtain ⟨e, hemem, hepath⟩ := hr1
        rw [← hepath]
        exact hpaths e hemem
      have hcd : (MM.mount mm kind m).2.currentDirectory = mm.currentDirectory := by
        rw [hm2]
      have hrem : MM.removeFirstMount (MM.mount mm kind m).2.mounts (MM.normalizePath mm.currentDirectory m) =
          some (MM.setFS mm.mounts ((MM.findResponsibleFilesystem mm.mounts (MM.normalizePath mm.currentDirectory m)).1) ({ MM.getFS mm.mounts ((MM.findResponsibleFilesystem mm.mounts (MM.normalizePath mm.currentDirectory m)).1) with root := root3 })) := by
        rw [hm2]
        show MM.removeFirstMount (MM.setFS mm.mounts ((MM.findResponsibleFilesystem mm.mounts (MM.normalizePath mm.currentDirectory m)).1) ({ MM.getFS mm.mounts ((MM.findResponsibleFilesystem mm.mounts (MM.normalizePath mm.currentDirectory m)).1) with root := root3 }) ++ [{ path := MM.normalizePath mm.currentDirectory m, filesystem := newFileSystem ("mount_" ++ toString mm.mounts.length) kind }]) (MM.normalizePath mm.currentDirectory m) = _
        apply removeFirst_append
        intro e he
        have hp := mem_setFS_path _ _ _ e he
        obtain ⟨e0, he0, hpe⟩ := List.mem_map.mp hp
        rw [← hpe]
        exact hpaths e0 he0
      have hunm : (MM.unmount (MM.mount mm kind m).2 m) = (true, { (MM.mount mm kind m).2 with mounts := MM.setFS mm.mounts ((MM.findResponsibleFilesystem mm.mounts (MM.normalizePath mm.currentDirectory m)).1) ({ MM.getFS mm.mounts ((MM.findResponsibleFilesystem mm.mounts (MM.normalizePath mm.currentDirectory m)).1) with root := root3 }) }) := by
        show (if MM.normalizePath (MM.mount mm kind m).2.currentDirectory m = ['/'] then
            ((false, (MM.mount mm kind m).2) : Bool × MountManager)
          else
            match MM.removeFirstMount (MM.mount mm kind m).2.mounts
                (MM.normalizePath (MM.mount mm kind m).2.currentDirectory m) with
            | none => (false, (MM.mount mm kind m).2)
            | some ms => (true, { (MM.mount mm kind m).2 with mounts := ms })) = _
        rw [hcd, if_neg hnproot, hrem]
      refine ⟨?_, ?_, ?_, ?_, ?_⟩
      · rw [hunm]
      · exact ⟨MM.setFS mm.mounts ((MM.findResponsibleFilesystem mm.mounts (MM.normalizePath mm.currentDirectory m)).1) ({ MM.getFS mm.mounts ((MM.findResponsibleFilesystem mm.mounts (MM.normalizePath mm.currentDirectory m)).1) with root := root3 }),
          newFileSystem ("mount_" ++ toString mm.mounts.length) kind,
          by rw [hm2], by rw [hunm]⟩
      · rw [hunm, hm2]
        show MM.getFS (MM.setFS mm.mounts ((MM.findResponsibleFilesystem mm.mounts (MM.normalizePath mm.currentDirectory m)).1) ({ MM.getFS mm.mounts ((MM.findResponsibleFilesystem mm.mounts (MM.normalizePath mm.currentDirectory m)).1) with root := root3 })) ((MM.findResponsibleFilesystem mm.mounts (MM.normalizePath mm.currentDirectory m)).1) =
          MM.getFS (MM.setFS mm.mounts ((MM.findResponsibleFilesystem mm.mounts (MM.normalizePath mm.currentDirectory m)).1) ({ MM.getFS mm.mounts ((MM.findResponsibleFilesystem mm.mounts (MM.normalizePath mm.currentDirectory m)).1) with root := root3 }) ++ [{ path := MM.normalizePath mm.currentDirectory m, filesystem := newFileSystem ("mount_" ++ toString mm.mounts.length) kind }]) ((MM.findResponsibleFilesystem mm.mounts (MM.normalizePath mm.currentDirectory m)).1)
        exact (getFS_append_ne (MM.setFS mm.mounts ((MM.findResponsibleFilesystem mm.mounts (MM.normalizePath mm.currentDirectory m)).1) ({ MM.getFS mm.mounts ((MM.findResponsibleFilesystem mm.mounts (MM.normalizePath mm.currentDirectory m)).1) with root := root3 })) ({ path := MM.normalizePath mm.currentDirectory m, filesystem := newFileSystem ("mount_" ++ toString mm.mounts.length) kind }) ((MM.findResponsibleFilesystem mm.mounts (MM.normalizePath mm.currentDirectory m)).1)
          (fun hcon => hr1ne hcon.symm)).symm
      · rw [hunm]
        show ∃ ch, FS.findNode (MM.getFS (MM.setFS mm.mounts ((MM.findResponsibleFilesystem mm.mounts (MM.normalizePath mm.currentDirectory m)).1) ({ MM.getFS mm.mounts ((MM.findResponsibleFilesystem mm.mounts (MM.normalizePath mm.currentDirectory m)).1) with root := root3 })) ((MM.findResponsibleFilesystem mm.mounts (MM.normalizePath mm.currentDirectory m)).1)).root
          ((MM.findResponsibleFilesystem mm.mounts (MM.normalizePath mm.currentDirectory m)).2) ['/'] = some (FSNode.dir ch)
        rw [getFS_setFS mm.mounts ((MM.findResponsibleFilesystem mm.mounts (MM.normalizePath mm.currentDirectory m)).1) ({ MM.getFS mm.mounts ((MM.findResponsibleFilesystem mm.mounts (MM.normalizePath mm.currentDirectory m)).1) with root := root3 }) hr1]
        show ∃ ch, FS.findNode root3 ((MM.findResponsibleFilesystem mm.mounts (MM.normalizePath mm.currentDirectory m)).2) ['/'] = some (FSNode.dir ch)
        exact mkdirRecursive_target_dir (MM.getFS mm.mounts ((MM.findResponsibleFilesystem mm.mounts (MM.normalizePath mm.currentDirectory m)).1)).root root3 ((MM.findResponsibleFilesystem mm.mounts (MM.normalizePath mm.currentDirectory m)).2) ['/'] hmr
      · rw [hunm]
        exact hcd

theorem C10_unmount_frame_spec_witness :
    (MM.unmount (MM.mount MM.initial "tmpfs" "/mnt".data).2 "/mnt".data).1 = true ∧
    (∃ pre nf, (MM.mount MM.initial "tmpfs" "/mnt".data).2.mounts =
        pre ++ [{ path := MM.normalizePath MM.initial.currentDirectory "/mnt".data, filesystem := nf }] ∧
      (MM.unmount (MM.mount MM.initial "tmpfs" "/mnt".data).2 "/mnt".data).2.mounts = pre) ∧
    MM.getFS (MM.unmount (MM.mount MM.initial "tmpfs" "/mnt".data).2 "/mnt".data).2.mounts ((MM.findResponsibleFilesystem MM.initial.mounts (MM.normalizePath MM.initial.currentDirectory "/mnt".data)).1) =
      MM.getFS (MM.mount MM.initial "tmpfs" "/mnt".data).2.mounts ((MM.findResponsibleFilesystem MM.initial.mounts (MM.normalizePath MM.initial.currentDirectory "/mnt".data)).1) ∧
    (∃ ch, FS.findNode (MM.getFS (MM.unmount (MM.mount MM.initial "tmpfs" "/mnt".data).2 "/mnt".data).2.mounts ((MM.findResponsibleFilesystem MM.initial.mounts (MM.normalizePath MM.initial.currentDirectory "/mnt".data)).1)).root
      ((MM.findResponsibleFilesystem MM.initial.mounts (MM.normalizePath MM.initial.currentDirectory "/mnt".data)).2) ['/'] = some (FSNode.dir ch)) ∧
    (MM.unmount (MM.mount MM.initial "tmpfs" "/mnt".data).2 "/mnt".data).2.currentDirectory = MM.initial.currentDirectory :=
  C10_unmount_frame_spec MM.initial "tmpfs" "/mnt".data
    ⟨{ path := ['/'], filesystem := newFileSystem "root" "ext4" },
      List.mem_cons_self _ _, rfl⟩
    rfl rfl

end VFE
